import Mathlib

/-!
Verification of the OCR request-orchestration engine of this repository.

The JavaScript source (background service-worker script) is shallowly
embedded: strings are `List Char`, JS `Map` objects are association lists in
insertion order, asynchronous workers become explicit step functions, and the
browser/network environment (image decode/encode, HTTP responses) is an
explicit oracle parameter.  Each definition mirrors one source function and is
named after it.
-/

namespace OcrVendor

/-- JS `\d` character class (ASCII digits `0`-`9`, code points 48-57). -/
def isDigitCh (c : Char) : Bool := decide (48 ≤ c.toNat ∧ c.toNat ≤ 57)

/-- JS whitespace (`\s`): the characters matched by `String.prototype.trim`
and by `\s` in regular expressions (TAB, LF, VT, FF, CR, SP, NBSP, Ogham
space, U+2000-200A, LS, PS, NNBSP, MMSP, ideographic space, BOM). -/
def isJsWs (c : Char) : Bool :=
  decide (c.toNat = 32 ∨ c.toNat = 9 ∨ c.toNat = 10 ∨ c.toNat = 13 ∨
    c.toNat = 0x0b ∨ c.toNat = 0x0c ∨ c.toNat = 0xa0 ∨ c.toNat = 0x1680 ∨
    (0x2000 ≤ c.toNat ∧ c.toNat ≤ 0x200a) ∨ c.toNat = 0x2028 ∨
    c.toNat = 0x2029 ∨ c.toNat = 0x202f ∨ c.toNat = 0x205f ∨
    c.toNat = 0x3000 ∨ c.toNat = 0xfeff)

/-- JS `String.prototype.trim`. -/
def jsTrim (l : List Char) : List Char :=
  ((l.dropWhile isJsWs).reverse.dropWhile isJsWs).reverse

/-- Substring test (JS `String.prototype.includes`). -/
def hasSub (pat : List Char) : List Char → Bool
  | [] => pat.isEmpty
  | c :: rest => pat.isPrefixOf (c :: rest) || hasSub pat rest

/-- JS `String.prototype.split` on a single-character-class separator:
splitting an empty string yields `[""]`, and separators at the ends yield
empty fragments, exactly as in JS. -/
def splitOnP (p : Char → Bool) : List Char → List (List Char)
  | [] => [[]]
  | c :: rest =>
    match splitOnP p rest with
    | [] => [[]]
    | h :: t => if p c then [] :: h :: t else (c :: h) :: t

/-- The separator class `[,、]` used throughout the post-processor. -/
def isCommaCh (c : Char) : Bool := c = ',' || c = '、'

/-- JS `Array.prototype.join(',')`. -/
def joinComma : List (List Char) → List Char
  | [] => []
  | [a] => a
  | a :: b :: t => a ++ ',' :: joinComma (b :: t)

/-! ## `formatPhoneNumber` (part_000 lines 1103-1179) -/

/-- Digits of a string: JS `s.replace(/[^\d]/g, '')`. -/
def digitsOf (s : List Char) : List Char := s.filter isDigitCh

/-- Hyphenated 3-way split `take i ++ "-" ++ take j of rest ++ "-" ++ rest`:
the shape produced by the `replace(/^(\d{i})(\d{j})(\d{k})$/, '$1-$2-$3')`
calls, which always match because the caller has already checked the length
and digit-purity of the input. -/
def splice3 (i j : Nat) (d : List Char) : List Char :=
  d.take i ++ '-' :: ((d.drop i).take j ++ '-' :: (d.drop i).drop j)

/-- Test `/^0[4-9]/` on the second character (used by the heuristic for
generic 0-leading 10-digit numbers; the first character is already known to
be `0` at the call site). -/
def secondDigit4to9 : List Char → Bool
  | _ :: c :: _ => decide ('4' ≤ c ∧ c ≤ '9')
  | _ => false

/-- The 10-digit dispatch of `formatPhoneNumber`: area-code prefix table,
free-dial, then the 2-vs-3-digit heuristic. -/
def fmt10 (d : List Char) : List Char :=
  if d.take 2 = ['0', '3'] then splice3 2 4 d
  else if d.take 2 = ['0', '6'] then splice3 2 4 d
  else if d.take 2 = ['0', '4'] then splice3 2 4 d
  else if d.take 3 = ['0', '5', '2'] ∨ d.take 3 = ['0', '7', '2'] ∨
          d.take 3 = ['0', '7', '5'] ∨ d.take 3 = ['0', '7', '8'] ∨
          d.take 3 = ['0', '8', '2'] ∨ d.take 3 = ['0', '9', '2'] then
    splice3 3 3 d
  else if d.take 4 = ['0', '1', '2', '0'] then splice3 4 2 d
  else if d.take 1 = ['0'] then
    if secondDigit4to9 d then splice3 3 3 d else splice3 2 4 d
  else splice3 3 3 d

/-- Length dispatch of `formatPhoneNumber` after hyphen stripping.  The JS
guard `/^\d{10,11}$/.test(digits)` is equivalent to a length test because
`digits` is digit-pure at that point. -/
def fmtByLen (d : List Char) : List Char :=
  if d.length = 10 then fmt10 d
  else if d.length = 11 then splice3 3 4 d
  else if d.length = 8 then d.take 4 ++ '-' :: d.drop 4
  else if d.length = 9 then splice3 3 3 d
  else d

/-- Test of `/^\d{2,4}-\d{2,4}-\d{4}$/`: the string consists of exactly three
hyphen-separated digit groups of sizes 2-4, 2-4 and exactly 4. -/
def hyphenFormatOk (s : List Char) : Bool :=
  match splitOnP (fun c => c = '-') s with
  | [a, b, c] =>
    a.all isDigitCh && decide (2 ≤ a.length ∧ a.length ≤ 4) &&
    b.all isDigitCh && decide (2 ≤ b.length ∧ b.length ≤ 4) &&
    c.all isDigitCh && decide (c.length = 4)
  | _ => false

/-- `formatPhoneNumber` (part_000 lines 1103-1179). -/
def formatPhoneNumber (s : List Char) : List Char :=
  if s = [] then []
  else if 11 < (digitsOf s).length then []
  else if s.contains '-' then
    if hyphenFormatOk s then s
    else fmtByLen (digitsOf (s.filter (fun c => c ≠ '-')))
  else fmtByLen (digitsOf s)

/-! ## Text normalization (part_000 lines 966-1024)

`String.prototype.normalize('NFC')` is a platform builtin; we model it on the
character repertoire this pipeline manipulates: canonical composition of a
kana base letter with an immediately following combining voicing mark
(U+3099 dakuten / U+309A handakuten), identity elsewhere.  This is exactly
the Unicode canonical-composition data for the hiragana/katakana blocks. -/

/-- Precomposed form of a kana letter followed by combining U+3099. -/
def dakutenNfc : Char → Option Char
  | 'か' => some 'が' | 'き' => some 'ぎ' | 'く' => some 'ぐ'
  | 'け' => some 'げ' | 'こ' => some 'ご' | 'さ' => some 'ざ'
  | 'し' => some 'じ' | 'す' => some 'ず' | 'せ' => some 'ぜ'
  | 'そ' => some 'ぞ' | 'た' => some 'だ' | 'ち' => some 'ぢ'
  | 'つ' => some 'づ' | 'て' => some 'で' | 'と' => some 'ど'
  | 'は' => some 'ば' | 'ひ' => some 'び' | 'ふ' => some 'ぶ'
  | 'へ' => some 'べ' | 'ほ' => some 'ぼ' | 'う' => some 'ゔ'
  | 'ゝ' => some 'ゞ'
  | 'カ' => some 'ガ' | 'キ' => some 'ギ' | 'ク' => some 'グ'
  | 'ケ' => some 'ゲ' | 'コ' => some 'ゴ' | 'サ' => some 'ザ'
  | 'シ' => some 'ジ' | 'ス' => some 'ズ' | 'セ' => some 'ゼ'
  | 'ソ' => some 'ゾ' | 'タ' => some 'ダ' | 'チ' => some 'ヂ'
  | 'ツ' => some 'ヅ' | 'テ' => some 'デ' | 'ト' => some 'ド'
  | 'ハ' => some 'バ' | 'ヒ' => some 'ビ' | 'フ' => some 'ブ'
  | 'ヘ' => some 'ベ' | 'ホ' => some 'ボ' | 'ウ' => some 'ヴ'
  | 'ワ' => some 'ヷ' | 'ヰ' => some 'ヸ' | 'ヱ' => some 'ヹ'
  | 'ヲ' => some 'ヺ' | 'ヽ' => some 'ヾ'
  | _ => none

/-- Precomposed form of a kana letter followed by combining U+309A. -/
def handakutenNfc : Char → Option Char
  | 'は' => some 'ぱ' | 'ひ' => some 'ぴ' | 'ふ' => some 'ぷ'
  | 'へ' => some 'ぺ' | 'ほ' => some 'ぽ'
  | 'ハ' => some 'パ' | 'ヒ' => some 'ピ' | 'フ' => some 'プ'
  | 'ヘ' => some 'ペ' | 'ホ' => some 'ポ'
  | _ => none

/-- Canonical composition of an adjacent pair under NFC (kana fragment). -/
def composeKana (a b : Char) : Option Char :=
  if b.toNat = 0x3099 then dakutenNfc a
  else if b.toNat = 0x309a then handakutenNfc a
  else none

/-- `normalize('NFC')` on the kana fragment: left-to-right composition of a
letter with an immediately following combining voicing mark.  Composition
outputs never compose further, so a single scan is the fixed point. -/
def nfcCompose : List Char → List Char
  | [] => []
  | [a] => [a]
  | a :: b :: rest =>
    match composeKana a b with
    | some c => c :: nfcCompose rest
    | none => a :: nfcCompose (b :: rest)

/-- Full-width alphanumeric character (`[Ａ-Ｚａ-ｚ０-９]`). -/
def isFullAlnum (c : Char) : Bool :=
  (0xff21 ≤ c.toNat ∧ c.toNat ≤ 0xff3a) ∨
  (0xff41 ≤ c.toNat ∧ c.toNat ≤ 0xff5a) ∨
  (0xff10 ≤ c.toNat ∧ c.toNat ≤ 0xff19)

/-- Full-width alphanumerics to half-width: `charCodeAt - 0xFEE0`. -/
def toHalfAlnum (l : List Char) : List Char :=
  l.map fun c => if isFullAlnum c then Char.ofNat (c.toNat - 0xfee0) else c

/-- `[・．]` to half-width: full-width middle dot U+30FB to half-width U+FF65
and full-width period U+FF0E to `.`. -/
def halfDots (l : List Char) : List Char :=
  l.map fun c =>
    if c = '・' then '･' else if c = '．' then '.' else c

/-- Half-width katakana base that combines with half-width dakuten `ﾞ`
(regex class `[ｶｷｸｹｺｻｼｽｾｿﾀﾁﾂﾃﾄﾊﾋﾌﾍﾎ]`), with its voiced full-width form:
the source looks the base up in `halfToFullKatakanaMap` and then in
`dakutenMap`, which covers every class member. -/
def halfDakuten : Char → Option Char
  | 'ｶ' => some 'ガ' | 'ｷ' => some 'ギ' | 'ｸ' => some 'グ'
  | 'ｹ' => some 'ゲ' | 'ｺ' => some 'ゴ' | 'ｻ' => some 'ザ'
  | 'ｼ' => some 'ジ' | 'ｽ' => some 'ズ' | 'ｾ' => some 'ゼ'
  | 'ｿ' => some 'ゾ' | 'ﾀ' => some 'ダ' | 'ﾁ' => some 'ヂ'
  | 'ﾂ' => some 'ヅ' | 'ﾃ' => some 'デ' | 'ﾄ' => some 'ド'
  | 'ﾊ' => some 'バ' | 'ﾋ' => some 'ビ' | 'ﾌ' => some 'ブ'
  | 'ﾍ' => some 'ベ' | 'ﾎ' => some 'ボ'
  | _ => none

/-- Half-width `ﾊ`-row base with its half-width handakuten `ﾟ` composition
(regex class `[ﾊﾋﾌﾍﾎ]`). -/
def halfHandakuten : Char → Option Char
  | 'ﾊ' => some 'パ' | 'ﾋ' => some 'ピ' | 'ﾌ' => some 'プ'
  | 'ﾍ' => some 'ペ' | 'ﾎ' => some 'ポ'
  | _ => none

/-- Replace `([ｶ..ﾎ])ﾞ` pairs by the precomposed voiced katakana
(part_000 lines 1002-1011), scanning left to right without overlap. -/
def dakutenCombine : List Char → List Char
  | [] => []
  | [a] => [a]
  | a :: b :: rest =>
    match if b = 'ﾞ' then halfDakuten a else none with
    | some c => c :: dakutenCombine rest
    | none => a :: dakutenCombine (b :: rest)

/-- Replace `([ﾊﾋﾌﾍﾎ])ﾟ` pairs by the precomposed half-voiced katakana
(part_000 lines 1013-1019). -/
def handakutenCombine : List Char → List Char
  | [] => []
  | [a] => [a]
  | a :: b :: rest =>
    match if b = 'ﾟ' then halfHandakuten a else none with
    | some c => c :: handakutenCombine rest
    | none => a :: handakutenCombine (b :: rest)

/-- Membership in the final conversion regex class of line 1022.  Note the
class lists the plain kana, small kana and `ｰ` but not `ﾞ`/`ﾟ`, so stray
voicing marks are left half-width. -/
def isHalfKataClass (c : Char) : Bool :=
  (0xff66 ≤ c.toNat ∧ c.toNat ≤ 0xff9d)

/-- `halfToFullKatakanaMap` lookup for the single-character conversion pass
(part_000 lines 985-999 / 1022-1024). -/
def halfToFullKata : Char → Char
  | 'ｱ' => 'ア' | 'ｲ' => 'イ' | 'ｳ' => 'ウ' | 'ｴ' => 'エ' | 'ｵ' => 'オ'
  | 'ｶ' => 'カ' | 'ｷ' => 'キ' | 'ｸ' => 'ク' | 'ｹ' => 'ケ' | 'ｺ' => 'コ'
  | 'ｻ' => 'サ' | 'ｼ' => 'シ' | 'ｽ' => 'ス' | 'ｾ' => 'セ' | 'ｿ' => 'ソ'
  | 'ﾀ' => 'タ' | 'ﾁ' => 'チ' | 'ﾂ' => 'ツ' | 'ﾃ' => 'テ' | 'ﾄ' => 'ト'
  | 'ﾅ' => 'ナ' | 'ﾆ' => 'ニ' | 'ﾇ' => 'ヌ' | 'ﾈ' => 'ネ' | 'ﾉ' => 'ノ'
  | 'ﾊ' => 'ハ' | 'ﾋ' => 'ヒ' | 'ﾌ' => 'フ' | 'ﾍ' => 'ヘ' | 'ﾎ' => 'ホ'
  | 'ﾏ' => 'マ' | 'ﾐ' => 'ミ' | 'ﾑ' => 'ム' | 'ﾒ' => 'メ' | 'ﾓ' => 'モ'
  | 'ﾔ' => 'ヤ' | 'ﾕ' => 'ユ' | 'ﾖ' => 'ヨ'
  | 'ﾗ' => 'ラ' | 'ﾘ' => 'リ' | 'ﾙ' => 'ル' | 'ﾚ' => 'レ' | 'ﾛ' => 'ロ'
  | 'ﾜ' => 'ワ' | 'ｦ' => 'ヲ' | 'ﾝ' => 'ン'
  | 'ｧ' => 'ァ' | 'ｨ' => 'ィ' | 'ｩ' => 'ゥ' | 'ｪ' => 'ェ' | 'ｫ' => 'ォ'
  | 'ｯ' => 'ッ' | 'ｬ' => 'ャ' | 'ｭ' => 'ュ' | 'ｮ' => 'ョ'
  | 'ｰ' => 'ー'
  | c => c

/-- The remaining-half-width-katakana conversion pass of line 1022. -/
def kataRestConvert (l : List Char) : List Char :=
  l.map fun c => if isHalfKataClass c then halfToFullKata c else c

/-- The field-independent normalization prefix of `postProcessOcrResult`
(part_000 lines 969-1024): NFC, trim, width folding, dot folding, and the
three half-width-katakana passes, in source order. -/
def normalizeBase (l : List Char) : List Char :=
  kataRestConvert (handakutenCombine (dakutenCombine
    (halfDots (toHalfAlnum (jsTrim (nfcCompose l))))))

/-! ## NG-word removal (part_000 lines 936-956 and 1075-1099) -/

/-- `ngWordsList` in source order; the alternation regex tries these
left-to-right at each position. -/
def ngWordsList : List (List Char) :=
  ["株式会社".toList, "有限会社".toList, "合同会社".toList, "合資会社".toList,
   "合名会社".toList, "医療法人".toList, "医療法人社団".toList,
   "医療法人財団".toList, "社会医療法人".toList, "宗教法人".toList,
   "学校法人".toList, "社会福祉法人".toList, "更生保護法人".toList,
   "相互会社".toList, "特定非営利活動法人".toList, "独立行政法人".toList,
   "地方独立行政法人".toList, "弁護士法人".toList, "有限責任中間法人".toList,
   "無限責任中間法人".toList, "行政書士法人".toList, "司法書士法人".toList,
   "税理士法人".toList, "国立大学法人".toList, "公立大学法人".toList,
   "農事組合法人".toList, "管理組合法人".toList, "社会保険労務士法人".toList,
   "一般社団法人".toList, "公益社団法人".toList, "一般財団法人".toList,
   "公益財団法人".toList, "非営利法人".toList, "(株)".toList, "(有)".toList,
   "支店".toList]

/-- First NG word (in alternation order) matching at the head of `s`. -/
def firstNgAt (s : List Char) : Option (List Char) :=
  ngWordsList.find? (fun w => w.isPrefixOf s)

/-- One global-regex replacement sweep of `ngWordsPattern` with `''`:
at each position try the alternatives in order; on a match drop it and
resume after the match, otherwise keep the character.  Fuel is the input
length, which suffices because every NG word is nonempty. -/
def removeNgScanAux : Nat → List Char → List Char
  | 0, s => s
  | _ + 1, [] => []
  | fuel + 1, c :: rest =>
    match firstNgAt (c :: rest) with
    | some w => removeNgScanAux fuel ((c :: rest).drop w.length)
    | none => c :: removeNgScanAux fuel rest

def removeNgScan (s : List Char) : List Char := removeNgScanAux s.length s

/-- `replace(/\s+/g, ' ')`: collapse each maximal whitespace run to one
space.  The Bool argument records whether we are inside a run. -/
def collapseWsAux : Bool → List Char → List Char
  | _, [] => []
  | inRun, c :: rest =>
    if isJsWs c then
      if inRun then collapseWsAux true rest else ' ' :: collapseWsAux true rest
    else c :: collapseWsAux false rest

def collapseWs (l : List Char) : List Char := collapseWsAux false l

def labelCompany : List Char := "会社名:".toList

/-- Does `/会社名:\s*$/` match at the head of `s` (i.e. `s` is the label
followed only by whitespace)? -/
def labelTailAt (s : List Char) : Bool :=
  labelCompany.isPrefixOf s && (s.drop labelCompany.length).all isJsWs

/-- `replace(/会社名:\s*$/i, '')`: remove from the leftmost position where
the label is followed only by whitespace up to the end. -/
def stripLabelTail : List Char → List Char
  | [] => []
  | c :: rest => if labelTailAt (c :: rest) then [] else c :: stripLabelTail rest

/-- `replace(/:\s*$/g, '')`: remove from the leftmost colon that is followed
only by whitespace up to the end. -/
def stripColonTail : List Char → List Char
  | [] => []
  | c :: rest =>
    if c = ':' && rest.all isJsWs then [] else c :: stripColonTail rest

/-- `removeNgWords` (part_000 lines 1075-1099). -/
def removeNgWords (text : List Char) : List Char :=
  let p1 := removeNgScan text
  let p2 :=
    if p1.contains ',' || p1.contains '、' then
      joinComma (((splitOnP isCommaCh p1).map
        (fun item => collapseWs (jsTrim item))).filter
        (fun item => ¬ item.isEmpty))
    else p1
  stripColonTail (stripLabelTail (jsTrim p2))

/-! ## `postProcessOcrResult` (part_000 lines 966-1067) -/

/-- Phone candidate cleanup `replace(/[^\d\-+]/g, '')`. -/
def cleanPhone (l : List Char) : List Char :=
  l.filter fun c => isDigitCh c || c = '-' || c = '+'

/-- Katakana-to-hiragana code-point shift for `[ァ-ヺ]`. -/
def kataToHira (c : Char) : Char :=
  if 0x30a1 ≤ c.toNat ∧ c.toNat ≤ 0x30fa then Char.ofNat (c.toNat - 0x60)
  else c

/-- `postProcessOcrResult` (part_000 lines 966-1067).  `fieldType` strings
other than the recognized ones (including the `null` default) take the
no-transform path of the `switch`. -/
def postProcessOcrResult (text : List Char) (fieldType : String) : List Char :=
  if text = [] then text
  else
    let t0 := normalizeBase text
    let t1 := if fieldType = "payee-name" then removeNgWords t0 else t0
    if fieldType = "phone-number" then
      if t1.contains ',' || t1.contains '、' then
        joinComma ((splitOnP isCommaCh t1).map
          (fun num => formatPhoneNumber (cleanPhone (jsTrim num))))
      else formatPhoneNumber (cleanPhone t1)
    else if fieldType = "payee-name" then jsTrim (collapseWs t1)
    else if fieldType = "phonetic" then t1.map kataToHira
    else t1

/-! ## `parseMultiFieldResult` (part_000 lines 1393-1463) -/

/-- JS `.` (dot without the `s` flag) excludes the line terminators. -/
def isLineTerm (c : Char) : Bool :=
  c = '\n' || c = '\r' || c.toNat = 0x2028 || c.toNat = 0x2029

/-- Attempt of `[\s　]*(.*?)(?:\n|$)` on the text `t` following a label
occurrence.  The greedy whitespace run is tried at full length first, which
succeeds when the first line terminator after it is `\n` or absent; on
failure backtracking succeeds with an empty capture exactly when the
whitespace run contains a `\n`.  (`　` U+3000 is already in `\s`.) -/
def matchLabelValue? (t : List Char) : Option (List Char) :=
  let u := t.dropWhile isJsWs
  let cap := u.takeWhile (fun c => ¬ isLineTerm c)
  if (u.drop cap.length).head? = some '\n' ∨ u.drop cap.length = [] then
    some cap
  else if (t.takeWhile isJsWs).contains '\n' then some []
  else none

/-- Leftmost successful match of `lab ++ [\s　]*(.*?)(?:\n|$)`: the regex
engine advances one position at a time, trying later label occurrences when
the tail pattern fails. -/
def extractField (lab : List Char) : List Char → Option (List Char)
  | [] => none
  | c :: rest =>
    if lab.isPrefixOf (c :: rest) then
      match matchLabelValue? ((c :: rest).drop lab.length) with
      | some v => some v
      | none => extractField lab rest
    else extractField lab rest

def labelPhone : List Char := "電話番号:".toList
def wordPhone : List Char := "電話番号".toList
def wordCompany : List Char := "会社名".toList

/-- `/^\s*電話番号:?\s*$/`. -/
def isPhoneLabelOnly (s : List Char) : Bool :=
  let r := s.dropWhile isJsWs
  wordPhone.isPrefixOf r &&
    (let r2 := r.drop wordPhone.length
     let r3 := if r2.head? = some ':' then r2.drop 1 else r2
     r3.all isJsWs)

/-- `/^\s*会社名:?\s*$/`. -/
def isCompanyLabelOnly (s : List Char) : Bool :=
  let r := s.dropWhile isJsWs
  wordCompany.isPrefixOf r &&
    (let r2 := r.drop wordCompany.length
     let r3 := if r2.head? = some ':' then r2.drop 1 else r2
     r3.all isJsWs)

/-- Prefix test `/^\s*電話番号:?/` (the optional colon cannot affect a pure
prefix match). -/
def startsPhoneLabel (s : List Char) : Bool :=
  wordPhone.isPrefixOf (s.dropWhile isJsWs)

/-- Prefix test `/^\s*会社名:?/`. -/
def startsCompanyLabel (s : List Char) : Bool :=
  wordCompany.isPrefixOf (s.dropWhile isJsWs)

/-- ASCII lowering for the case-insensitive `tel`/`phone` prefix tests. -/
def asciiLower (c : Char) : Char :=
  if 'A' ≤ c ∧ c ≤ 'Z' then Char.ofNat (c.toNat + 32) else c

/-- `/^tel:?/i`. -/
def startsTel (s : List Char) : Bool :=
  "tel".toList.isPrefixOf (s.map asciiLower)

/-- `/^phone:?/i`. -/
def startsPhoneWord (s : List Char) : Bool :=
  "phone".toList.isPrefixOf (s.map asciiLower)

/-- `/^\d[\d\-\s\(\)]*$/`. -/
def isNumericCandidate : List Char → Bool
  | [] => false
  | c :: rest =>
    isDigitCh c &&
      rest.all (fun d => isDigitCh d || d = '-' || isJsWs d || d = '(' || d = ')')

structure MultiFieldResult where
  payeeName : List Char
  phoneNumber : List Char
deriving DecidableEq, Repr

/-- `parseMultiFieldResult` (part_000 lines 1393-1463).  An empty capture is
falsy in JS, so `match && match[1] ? match[1].trim() : ''` coincides with
trimming the (possibly empty) capture. -/
def parseMultiFieldResult (text : List Char) : MultiFieldResult :=
  let companyRaw :=
    match extractField labelCompany text with
    | some v => jsTrim v
    | none => []
  let phoneRaw :=
    match extractField labelPhone text with
    | some v => jsTrim v
    | none => []
  let companyName0 := postProcessOcrResult companyRaw "payee-name"
  let phoneNumber0 := postProcessOcrResult phoneRaw "phone-number"
  let companyName1 := if isPhoneLabelOnly companyName0 then [] else companyName0
  let phoneNumber1 := if isCompanyLabelOnly phoneNumber0 then [] else phoneNumber0
  let companyName2 :=
    if companyName1 ≠ [] ∧
        (companyName1.contains ',' || companyName1.contains '、') then
      let names := ((splitOnP isCommaCh companyName1).map jsTrim).filter
        (fun name => ¬ name.isEmpty && ¬ startsPhoneLabel name &&
          ¬ startsTel name && ¬ startsPhoneWord name && ¬ isNumericCandidate name)
      if names ≠ [] then joinComma names else []
    else companyName1
  let phoneNumber2 :=
    if phoneNumber1 ≠ [] ∧ startsCompanyLabel phoneNumber1 then []
    else phoneNumber1
  ⟨companyName2, phoneNumber2⟩

/-! ## `APIRequestQueue` (part_000 lines 391-434)

The queue's single worker (`processing` flag) pops calls in FIFO order,
sleeps until `minInterval` has elapsed since `lastRequest`, invokes the call,
routes the result or error to that call's own promise, records
`lastRequest := Date.now()` in `finally`, and re-schedules itself after a
50 ms delay.  We model this as a deterministic trace over abstract request
durations: the worker state is (current time, lastRequest). -/

structure QCall where
  id : Nat
  duration : Nat
  ok : Bool
deriving DecidableEq, Repr

structure CallTrace where
  id : Nat
  startTime : Nat
  endTime : Nat
  ok : Bool
deriving DecidableEq, Repr

def minIntervalMs : Nat := 500
def queueRescheduleDelayMs : Nat := 50

/-- Trace of the worker loop `processQueue`: a call starts as soon as the
elapsed time since `lastRequest` reaches `minInterval` (i.e. at
`max now (lastRequest + minInterval)`), runs for its duration, and the next
iteration is scheduled `queueRescheduleDelayMs` later. -/
def runQueue (minInterval delay : Nat) : Nat → Nat → List QCall → List CallTrace
  | _, _, [] => []
  | now, lastReq, c :: rest =>
    let start := max now (lastReq + minInterval)
    let endT := start + c.duration
    ⟨c.id, start, endT, c.ok⟩ :: runQueue minInterval delay (endT + delay) endT rest

/-- The global `apiRequestQueue` with its source constants. -/
def runAPIRequestQueue (now lastReq : Nat) (cs : List QCall) : List CallTrace :=
  runQueue minIntervalMs queueRescheduleDelayMs now lastReq cs

/-! ## `checkImageSize` (part_000 lines 445-463) -/

/-- `dataUrl.split(',')[1] || ''`. -/
def base64Part (dataUrl : List Char) : List Char :=
  (splitOnP (fun c => c = ',') dataUrl).getD 1 []

/-- `(base64.length * 0.75) / (1024 * 1024)`. -/
def estimatedSizeMB (dataUrl : List Char) : ℚ :=
  ((base64Part dataUrl).length : ℚ) * (3 / 4) / (1024 * 1024)

inductive SizeCheckError where
  | invalidData
  | oversize (sizeMB : ℚ)
deriving DecidableEq

/-- `checkImageSize`: throws on a falsy/non-string argument, throws an
oversize error above the 15 MB cap, otherwise returns the estimated size. -/
def checkImageSize (dataUrl : List Char) : Except SizeCheckError ℚ :=
  if dataUrl = [] then .error .invalidData
  else
    let sizeInMB := estimatedSizeMB dataUrl
    if 15 < sizeInMB then .error (.oversize sizeInMB) else .ok sizeInMB

/-! ## `optimizeImage` (part_000 lines 1639-1759)

Canvas decoding and JPEG re-encoding are platform facilities; they enter the
model as an oracle `ImgEnv`.  A `none` from the oracle stands for the decode
or encode path throwing, which the source catches, returning the original
image. -/

structure ImgEnv where
  decode : List Char → Option (Nat × Nat)
  encode : Nat → Nat → ℚ → Option (List Char)

structure OptimizeOptions where
  rotation : Int
  isQuarterRotated : Bool
  maxDimension : Nat
  quality : Option ℚ
  enhanceText : Bool
  contrast : Option ℚ
deriving Repr

def dataImageUrlStart : List Char := "data:image/".toList

/-- `Math.round(num / den)` for nonnegative arguments (half away from zero). -/
def jsRound (num den : Nat) : Nat := (2 * num + den) / (2 * den)

/-- Aspect-preserving resize bound by `maxDimension`, with the width/height
swap applied for quarter rotations (part_000 lines 1654-1682).  Returns
`(targetWidth, targetHeight)`. -/
def computeResize (w h maxD : Nat) (quarter : Bool) : Nat × Nat :=
  if quarter then
    if maxD < h ∨ maxD < w then
      if w < h then (jsRound (w * maxD) h, maxD)
      else (maxD, jsRound (h * maxD) w)
    else (w, h)
  else
    if maxD < w ∨ maxD < h then
      if h < w then (maxD, jsRound (h * maxD) w)
      else (jsRound (w * maxD) h, maxD)
    else (w, h)

/-- `optimizeImage`: every failure path of the `try` body (invalid input is
checked explicitly; decode and encode failures surface as oracle `none`)
results in the original image being returned. -/
def optimizeImage (env : ImgEnv) (imageData : List Char)
    (o : OptimizeOptions) : List Char :=
  if ¬ dataImageUrlStart.isPrefixOf imageData then imageData
  else
    match env.decode imageData with
    | none => imageData
    | some (w, h) =>
      let quarter := o.isQuarterRotated || (o.rotation.tmod 180).natAbs = 90
      let maxD := if o.maxDimension = 0 then 1600 else o.maxDimension
      let tw := (computeResize w h maxD quarter).1
      let th := (computeResize w h maxD quarter).2
      let cw := if quarter then th else tw
      let ch := if quarter then tw else th
      let q : ℚ :=
        match o.quality with
        | some q => q
        | none => if 800000 < cw * ch then 88 / 100 else 95 / 100
      match env.encode cw ch q with
      | none => imageData
      | some res => res

/-! ## `compressImageToSize` (part_000 lines 471-504) -/

def qualityLevels : List ℚ := [8/10, 6/10, 4/10, 3/10]
def dimensionLimits : List Nat := [1400, 1200, 1000, 800]

/-- The options passed to `optimizeImage` at ladder step `i`. -/
def ladderOptions (i : Nat) : OptimizeOptions :=
  { rotation := 0, isQuarterRotated := false,
    maxDimension := dimensionLimits.getD i 0,
    quality := some (qualityLevels.getD i 0),
    enhanceText := true, contrast := some (11/10) }

/-- The compressed image produced at ladder step `i`. -/
def ladderStep (env : ImgEnv) (img : List Char) (i : Nat) : List Char :=
  optimizeImage env img (ladderOptions i)

inductive CompressError where
  | exhausted
deriving DecidableEq

/-- Loop body of `compressImageToSize` from step `i`, with `n` steps left
(`optimizeImage` never throws, so the per-step `catch` is not taken). -/
def compressGo (env : ImgEnv) (img : List Char) (target : ℚ) :
    Nat → Nat → Except CompressError (List Char)
  | _, 0 => .error .exhausted
  | i, n + 1 =>
    let compressed := ladderStep env img i
    if estimatedSizeMB compressed ≤ target then .ok compressed
    else compressGo env img target (i + 1) n

/-- `compressImageToSize(imageData, targetSizeMB)`. -/
def compressImageToSize (env : ImgEnv) (img : List Char) (target : ℚ) :
    Except CompressError (List Char) :=
  compressGo env img target 0 qualityLevels.length

/-! ## `extractTextWithGemini` retry loop (part_000 lines 588-758)

The network is abstracted as one `AttemptOutcome` per attempt index: an OK
response carrying text, a non-OK HTTP response (status + extracted error
message), a fetch-level rejection (network failure or the 15 s timeout
message), or an OK response without candidate text. -/

inductive AttemptOutcome where
  | success (text : List Char)
  | httpError (status : Nat) (msg : List Char)
  | fetchError (msg : List Char)
  | noText
deriving Repr

/-- Temporary classification of a non-OK response (part_000 lines 699-709). -/
def isTempHttpClass (status : Nat) (msg : List Char) : Bool :=
  hasSub "overloaded".toList msg || hasSub "rate limit".toList msg ||
  hasSub "server error".toList msg || hasSub "try again".toList msg ||
  status = 429 || 500 ≤ status

/-- The error message thrown by one attempt, or the extracted text. -/
def attemptResult : AttemptOutcome → Except (List Char) (List Char)
  | .success t => .ok t
  | .httpError status msg =>
    .error (if isTempHttpClass status msg
      then "一時的なAPI制限: ".toList ++ msg
      else "API エラー: ".toList ++ msg)
  | .fetchError msg => .error msg
  | .noText => .error "テキストを抽出できませんでした".toList

/-- Retry gate in the `catch` block (part_000 lines 731-737). -/
def isTemporaryError (m : List Char) : Bool :=
  hasSub "一時的なAPI制限".toList m || hasSub "overloaded".toList m ||
  hasSub "rate limit".toList m || hasSub "timeout".toList m ||
  hasSub "タイムアウト".toList m

/-- `1000 * Math.pow(1.5, attempt - 1)` where `attempt` is the
post-increment counter (part_000 line 744). -/
def backoffDelayMs (attempt : Nat) : ℚ := 1000 * (3 / 2) ^ (attempt - 1)

/-- The `while (attempt <= MAX_RETRIES)` loop: result plus the list of
backoff delays actually waited.  `fuel = maxRetries + 1 - attempt` bounds the
loop; the final catch-all throw after the loop is unreachable. -/
def geminiLoop (outcomes : Nat → AttemptOutcome) (maxRetries : Nat) :
    Nat → Nat → Except (List Char) (List Char) × List ℚ
  | _, 0 => (.error "Gemini APIへのリクエストが失敗しました".toList, [])
  | attempt, fuel + 1 =>
    match attemptResult (outcomes attempt) with
    | .ok t => (.ok t, [])
    | .error e =>
      if isTemporaryError e ∧ attempt < maxRetries then
        let d := backoffDelayMs (attempt + 1)
        let r := geminiLoop outcomes maxRetries (attempt + 1) fuel
        (r.1, d :: r.2)
      else (.error e, [])

def geminiMaxRetries : Nat := 1

/-- The retry behaviour of `extractTextWithGemini` for a given sequence of
attempt outcomes. -/
def extractTextWithGeminiRetry (outcomes : Nat → AttemptOutcome) :
    Except (List Char) (List Char) × List ℚ :=
  geminiLoop outcomes geminiMaxRetries 0 (geminiMaxRetries + 1)

/-! ## Result cache (part_000 lines 1527-1600, 1953, 1310-1325)

`imageCache` is a JS `Map`, i.e. an insertion-ordered association list whose
`set` on an existing key updates in place and whose `keys().next().value` is
the oldest-inserted key. -/

abbrev Cache := List (List Char × List Char)

/-- `imageCache.get(key)`. -/
def cacheGet (cache : Cache) (k : List Char) : Option (List Char) :=
  (cache.find? (fun p => p.1 = k)).map (fun p => p.2)

/-- `imageCache.set(key, value)` (JS `Map` semantics). -/
def mapSet (cache : Cache) (k v : List Char) : Cache :=
  if cache.any (fun p => p.1 = k) then
    cache.map (fun p => if p.1 = k then (k, v) else p)
  else cache ++ [(k, v)]

/-- The store step of `handleImageProcessing` (part_000 lines 1565-1571):
`set`, then evict the single oldest key when the size exceeds 30. -/
def cachePutLimited (cache : Cache) (k v : List Char) : Cache :=
  let c := mapSet cache k v
  if 30 < c.length then c.drop 1 else c

def relevantSettingsKeys : List String :=
  ["geminiApiKey", "ocrLanguage", "ocrMode", "geminiModel"]

/-- The `chrome.storage.onChanged` listener (part_000 lines 1310-1325): the
cache is cleared entirely when any OCR-affecting key changes in the `local`
namespace. -/
def onStorageChanged (ns : String) (changedKeys : List String)
    (cache : Cache) : Cache :=
  if ns = "local" ∧ changedKeys.any (fun k => relevantSettingsKeys.contains k)
  then []
  else cache

/-! ## Generic list lemmas -/

theorem map_id_of_mem {α : Type} {f : α → α} :
    ∀ {l : List α}, (∀ c ∈ l, f c = c) → l.map f = l := by
  intro l
  induction l with
  | nil => intro _; rfl
  | cons a t ih =>
    intro h
    simp only [List.map_cons, h a (by simp), List.cons.injEq, true_and]
    exact ih fun c hc => h c (by simp [hc])

theorem dropWhile_eq_self_of_none {p : Char → Bool} {l : List Char}
    (h : ∀ a ∈ l, p a = false) : l.dropWhile p = l := by
  cases l with
  | nil => rfl
  | cons a t => simp [List.dropWhile_cons, h a (by simp)]

theorem jsTrim_eq_self {l : List Char} (h : ∀ a ∈ l, isJsWs a = false) :
    jsTrim l = l := by
  unfold jsTrim
  rw [dropWhile_eq_self_of_none h, dropWhile_eq_self_of_none, List.reverse_reverse]
  intro a ha
  exact h a (by simpa using ha)

theorem takeWhile_append_of_all {q : Char → Bool} {xs : List Char}
    (ys : List Char) (h : ∀ a ∈ xs, q a = true) :
    (xs ++ ys).takeWhile q = xs ++ ys.takeWhile q := by
  induction xs with
  | nil => rfl
  | cons a t ih =>
    simp only [List.cons_append, List.takeWhile_cons, h a (by simp)]
    simp [ih fun c hc => h c (by simp [hc])]

theorem dropWhile_append_of_all {q : Char → Bool} {xs : List Char}
    (ys : List Char) (h : ∀ a ∈ xs, q a = true) :
    (xs ++ ys).dropWhile q = ys.dropWhile q := by
  induction xs with
  | nil => rfl
  | cons a t ih =>
    simp only [List.cons_append, List.dropWhile_cons, h a (by simp)]
    exact ih fun c hc => h c (by simp [hc])

theorem takeWhile_eq_self_of_all {q : Char → Bool} {xs : List Char}
    (h : ∀ a ∈ xs, q a = true) : xs.takeWhile q = xs := by
  simpa using @takeWhile_append_of_all q xs [] h

/-! ## `splitOnP` lemmas -/

theorem splitOnP_ne_nil (p : Char → Bool) (l : List Char) :
    splitOnP p l ≠ [] := by
  cases l with
  | nil => simp [splitOnP]
  | cons c rest =>
    unfold splitOnP
    cases splitOnP p rest with
    | nil => simp
    | cons h t => dsimp only; split <;> simp

theorem splitOnP_all_neg {p : Char → Bool} {l : List Char}
    (h : ∀ c ∈ l, p c = false) : splitOnP p l = [l] := by
  induction l with
  | nil => rfl
  | cons c rest ih =>
    unfold splitOnP
    rw [ih fun d hd => h d (by simp [hd])]
    simp [h c (by simp)]

theorem splitOnP_append_sep {p : Char → Bool} {a : List Char} {sep : Char}
    (r : List Char) (ha : ∀ c ∈ a, p c = false) (hsep : p sep = true) :
    splitOnP p (a ++ sep :: r) = a :: splitOnP p r := by
  induction a with
  | nil =>
    simp only [List.nil_append]
    rw [show splitOnP p (sep :: r) =
      match splitOnP p r with
      | [] => [[]]
      | h :: t => if p sep then [] :: h :: t else (sep :: h) :: t from rfl]
    cases hr : splitOnP p r with
    | nil => exact absurd hr (splitOnP_ne_nil p r)
    | cons h t => simp [hsep]
  | cons c rest ih =>
    have step : splitOnP p (rest ++ sep :: r) = rest :: splitOnP p r :=
      ih fun d hd => ha d (by simp [hd])
    simp only [List.cons_append]
    rw [show splitOnP p (c :: (rest ++ sep :: r)) =
      match splitOnP p (rest ++ sep :: r) with
      | [] => [[]]
      | h :: t => if p c then [] :: h :: t else (c :: h) :: t from rfl]
    rw [step]
    simp [ha c (by simp)]

theorem splitOnP_joinComma {L : List (List Char)}
    (hL : L ≠ [])
    (h : ∀ x ∈ L, ∀ c ∈ x, isCommaCh c = false) :
    splitOnP isCommaCh (joinComma L) = L := by
  induction L with
  | nil => exact absurd rfl hL
  | cons a t ih =>
    cases t with
    | nil =>
      simp only [joinComma]
      exact splitOnP_all_neg (h a (by simp))
    | cons b t2 =>
      have step : splitOnP isCommaCh (a ++ ',' :: joinComma (b :: t2)) =
          a :: splitOnP isCommaCh (joinComma (b :: t2)) :=
        splitOnP_append_sep _ (h a (by simp)) (by decide)
      simp only [joinComma]
      rw [step, ih (by simp) fun x hx c hc => h x (by simp [hx]) c hc]

theorem mem_joinComma {c : Char} :
    ∀ {L : List (List Char)}, c ∈ joinComma L →
      c = ',' ∨ ∃ x ∈ L, c ∈ x := by
  intro L
  induction L with
  | nil => simp [joinComma]
  | cons a t ih =>
    cases t with
    | nil => intro h; right; exact ⟨a, by simp, by simpa [joinComma] using h⟩
    | cons b t2 =>
      intro h
      simp only [joinComma, List.mem_append, List.mem_cons] at h
      rcases h with h | h | h
      · exact Or.inr ⟨a, by simp, h⟩
      · exact Or.inl h
      · rcases ih (by simpa [joinComma] using h) with h2 | ⟨x, hx, hcx⟩
        · exact Or.inl h2
        · exact Or.inr ⟨x, by simp [hx], hcx⟩

theorem joinComma_contains_comma {a b : List Char} (t : List (List Char)) :
    ',' ∈ joinComma (a :: b :: t) := by
  simp [joinComma]

theorem two_le_splitOnP_length {p : Char → Bool} {l : List Char}
    (h : ∃ c ∈ l, p c = true) : 2 ≤ (splitOnP p l).length := by
  induction l with
  | nil => simp at h
  | cons c rest ih =>
    unfold splitOnP
    cases hr : splitOnP p rest with
    | nil => exact absurd hr (splitOnP_ne_nil p rest)
    | cons x t =>
      rcases h with ⟨d, hd, hpd⟩
      rcases List.mem_cons.mp hd with rfl | hd2
      · simp [hpd]
      · have := ih ⟨d, hd2, hpd⟩
        rw [hr] at this
        dsimp only
        split <;> simp_all

theorem mem_of_mem_splitOnP {p : Char → Bool} {c : Char} :
    ∀ {l : List Char} {x : List Char},
      x ∈ splitOnP p l → c ∈ x → c ∈ l := by
  intro l
  induction l with
  | nil =>
    intro x hx hc
    simp [splitOnP] at hx
    subst hx
    simp at hc
  | cons a rest ih =>
    intro x hx hc
    rw [show splitOnP p (a :: rest) =
      match splitOnP p rest with
      | [] => [[]]
      | h :: t => if p a then [] :: h :: t else (a :: h) :: t from rfl] at hx
    cases hr : splitOnP p rest with
    | nil => exact absurd hr (splitOnP_ne_nil p rest)
    | cons h t =>
      rw [hr] at hx
      dsimp only at hx
      by_cases hpa : p a
      · rw [if_pos hpa] at hx
        rcases List.mem_cons.mp hx with rfl | hx2
        · simp at hc
        · exact List.mem_cons_of_mem a (ih (hr ▸ hx2) hc)
      · rw [if_neg hpa] at hx
        rcases List.mem_cons.mp hx with rfl | hx2
        · rcases List.mem_cons.mp hc with rfl | hc2
          · simp
          · exact List.mem_cons_of_mem a (ih (hr ▸ List.mem_cons_self h t) hc2)
        · exact List.mem_cons_of_mem a (ih (hr ▸ List.mem_cons_of_mem h hx2) hc)

/-- Every character of `l` is either in some fragment of the split or is a
separator. -/
theorem splitOnP_char_cover {p : Char → Bool} {c : Char} :
    ∀ {l : List Char}, c ∈ l →
      (∃ x ∈ splitOnP p l, c ∈ x) ∨ p c = true := by
  intro l
  induction l with
  | nil => simp
  | cons a rest ih =>
    intro hc
    rw [show splitOnP p (a :: rest) =
      match splitOnP p rest with
      | [] => [[]]
      | h :: t => if p a then [] :: h :: t else (a :: h) :: t from rfl]
    cases hr : splitOnP p rest with
    | nil => exact absurd hr (splitOnP_ne_nil p rest)
    | cons h t =>
      dsimp only
      rcases List.mem_cons.mp hc with rfl | hc2
      · by_cases hpa : p c
        · exact Or.inr hpa
        · rw [if_neg hpa]
          exact Or.inl ⟨c :: h, by simp, by simp⟩
      · rcases ih hc2 with ⟨x, hx, hcx⟩ | hp
        · rw [hr] at hx
          rcases List.mem_cons.mp hx with rfl | hx2
          · by_cases hpa : p a
            · rw [if_pos hpa]; exact Or.inl ⟨x, by simp, hcx⟩
            · rw [if_neg hpa]; exact Or.inl ⟨a :: x, by simp, by simp [hcx]⟩
          · by_cases hpa : p a
            · rw [if_pos hpa]; exact Or.inl ⟨x, by simp [hx2], hcx⟩
            · rw [if_neg hpa]; exact Or.inl ⟨x, by simp [hx2], hcx⟩
        · exact Or.inr hp

/-- The concatenation of the fragments is the input minus the separators. -/
theorem splitOnP_flatten {p : Char → Bool} :
    ∀ {l : List Char}, (splitOnP p l).flatten = l.filter (fun c => ¬ p c) := by
  intro l
  induction l with
  | nil => simp [splitOnP]
  | cons a rest ih =>
    rw [show splitOnP p (a :: rest) =
      match splitOnP p rest with
      | [] => [[]]
      | h :: t => if p a then [] :: h :: t else (a :: h) :: t from rfl]
    cases hr : splitOnP p rest with
    | nil => exact absurd hr (splitOnP_ne_nil p rest)
    | cons h t =>
      have hj := ih
      rw [hr] at hj
      dsimp only
      by_cases hpa : p a
      · rw [if_pos hpa]
        simp only [List.flatten_cons, List.nil_append, List.filter_cons, hpa]
        simpa using hj
      · rw [if_neg hpa]
        simp only [List.flatten_cons] at hj
        simp [List.filter_cons, hpa, hj]

/-! ## Character-class lemmas

`PlainChar c` collects the properties making a character inert for every
stage of `normalizeBase`: not whitespace, not full-width alphanumeric, not
half-width katakana, not a dot being folded, not a half-width voicing mark,
and not a combining voicing mark. -/

def PlainChar (c : Char) : Prop :=
  isJsWs c = false ∧ isFullAlnum c = false ∧ isHalfKataClass c = false ∧
  c.toNat ≠ 0x30fb ∧ c.toNat ≠ 0xff0e ∧ c.toNat ≠ 0xff9e ∧
  c.toNat ≠ 0xff9f ∧ c.toNat ≠ 0x3099 ∧ c.toNat ≠ 0x309a

instance (c : Char) : Decidable (PlainChar c) := by
  unfold PlainChar; infer_instance

theorem ne_of_toNat_ne {c d : Char} (h : c.toNat ≠ d.toNat) : c ≠ d :=
  fun heq => h (congrArg Char.toNat heq)

theorem plainChar_of_digit {c : Char} (h : isDigitCh c = true) : PlainChar c := by
  simp only [isDigitCh, decide_eq_true_eq] at h
  refine ⟨?_, ?_, ?_, ?_, ?_, ?_, ?_, ?_, ?_⟩ <;>
    first
      | (simp only [isJsWs, isFullAlnum, isHalfKataClass,
          decide_eq_false_iff_not]; omega)
      | omega

theorem plainChar_dash : PlainChar '-' := by decide

theorem plainChar_comma : PlainChar ',' := by decide

theorem nfcCompose_eq_self {l : List Char}
    (h : ∀ c ∈ l, c.toNat ≠ 0x3099 ∧ c.toNat ≠ 0x309a) : nfcCompose l = l := by
  induction l with
  | nil => rfl
  | cons a rest ih =>
    cases rest with
    | nil => rfl
    | cons b rest2 =>
      have hb := h b (by simp)
      have hcomp : composeKana a b = none := by
        unfold composeKana
        rw [if_neg hb.1, if_neg hb.2]
      rw [show nfcCompose (a :: b :: rest2) =
        match composeKana a b with
        | some c => c :: nfcCompose rest2
        | none => a :: nfcCompose (b :: rest2) from rfl]
      rw [hcomp]
      simpa using ih fun c hc => h c (by simp [List.mem_cons.mp hc])

theorem dakutenCombine_eq_self {l : List Char}
    (h : ∀ c ∈ l, c.toNat ≠ 0xff9e) : dakutenCombine l = l := by
  induction l with
  | nil => rfl
  | cons a rest ih =>
    cases rest with
    | nil => rfl
    | cons b rest2 =>
      have hb : b ≠ 'ﾞ' := ne_of_toNat_ne (h b (by simp))
      rw [show dakutenCombine (a :: b :: rest2) =
        match if b = 'ﾞ' then halfDakuten a else none with
        | some c => c :: dakutenCombine rest2
        | none => a :: dakutenCombine (b :: rest2) from rfl]
      rw [if_neg hb]
      simpa using ih fun c hc => h c (by simp [List.mem_cons.mp hc])

theorem handakutenCombine_eq_self {l : List Char}
    (h : ∀ c ∈ l, c.toNat ≠ 0xff9f) : handakutenCombine l = l := by
  induction l with
  | nil => rfl
  | cons a rest ih =>
    cases rest with
    | nil => rfl
    | cons b rest2 =>
      have hb : b ≠ 'ﾟ' := ne_of_toNat_ne (h b (by simp))
      rw [show handakutenCombine (a :: b :: rest2) =
        match if b = 'ﾟ' then halfHandakuten a else none with
        | some c => c :: handakutenCombine rest2
        | none => a :: handakutenCombine (b :: rest2) from rfl]
      rw [if_neg hb]
      simpa using ih fun c hc => h c (by simp [List.mem_cons.mp hc])

/-- A list of `PlainChar`s is a fixed point of the normalization prefix. -/
theorem normalizeBase_eq_self {l : List Char}
    (h : ∀ c ∈ l, PlainChar c) : normalizeBase l = l := by
  unfold normalizeBase
  rw [nfcCompose_eq_self fun c hc => ⟨(h c hc).2.2.2.2.2.2.2.1, (h c hc).2.2.2.2.2.2.2.2⟩]
  rw [jsTrim_eq_self fun c hc => (h c hc).1]
  rw [show toHalfAlnum l = l from
    map_id_of_mem fun c hc => by
      simp only [(h c hc).2.1, Bool.false_eq_true, if_false]]
  rw [show halfDots l = l from
    map_id_of_mem fun c hc => by
      rw [if_neg (ne_of_toNat_ne (h c hc).2.2.2.1),
        if_neg (ne_of_toNat_ne (h c hc).2.2.2.2.1)]]
  rw [dakutenCombine_eq_self fun c hc => (h c hc).2.2.2.2.2.1]
  rw [handakutenCombine_eq_self fun c hc => (h c hc).2.2.2.2.2.2.1]
  exact map_id_of_mem fun c hc => by
    simp only [(h c hc).2.2.1, Bool.false_eq_true, if_false]

/-! ## `formatPhoneNumber` lemmas -/

theorem digitsOf_mem_digit {s : List Char} {c : Char} (h : c ∈ digitsOf s) :
    isDigitCh c = true := (List.mem_filter.mp h).2

theorem digitsOf_eq_self {d : List Char} (h : ∀ c ∈ d, isDigitCh c = true) :
    digitsOf d = d := List.filter_eq_self.mpr h

theorem not_dash_of_digit {c : Char} (h : isDigitCh c = true) : c ≠ '-' := by
  simp only [isDigitCh, decide_eq_true_eq] at h
  apply ne_of_toNat_ne
  have h45 : ('-').toNat = 45 := rfl
  omega

theorem splice3_chars {i j : Nat} {d : List Char} {c : Char}
    (h : c ∈ splice3 i j d) : c ∈ d ∨ c = '-' := by
  unfold splice3 at h
  simp only [List.mem_append, List.mem_cons] at h
  rcases h with h | h | h | h | h
  · exact Or.inl (List.take_subset i d h)
  · exact Or.inr h
  · exact Or.inl (List.drop_subset i d (List.take_subset j _ h))
  · exact Or.inr h
  · exact Or.inl (List.drop_subset i d (List.drop_subset j _ h))

theorem splice3_ne_nil (i j : Nat) (d : List Char) : splice3 i j d ≠ [] := by
  unfold splice3
  intro h
  have := congrArg List.length h
  simp at this

theorem dash_mem_splice3 (i j : Nat) (d : List Char) : '-' ∈ splice3 i j d := by
  unfold splice3
  simp

theorem digitsOf_splice3 {d : List Char} (hall : ∀ c ∈ d, isDigitCh c = true)
    (i j : Nat) : digitsOf (splice3 i j d) = d := by
  unfold splice3 digitsOf
  rw [List.filter_append]
  rw [List.filter_eq_self.mpr fun c hc => hall c (List.take_subset i d hc)]
  rw [show List.filter isDigitCh ('-' :: ((d.drop i).take j ++
      '-' :: (d.drop i).drop j)) = List.filter isDigitCh ((d.drop i).take j ++
      '-' :: (d.drop i).drop j) from by simp [List.filter_cons]; decide]
  rw [List.filter_append]
  rw [List.filter_eq_self.mpr fun c hc =>
    hall c (List.drop_subset i d (List.take_subset j _ hc))]
  rw [show List.filter isDigitCh ('-' :: (d.drop i).drop j) =
      List.filter isDigitCh ((d.drop i).drop j) from by
    simp [List.filter_cons]; decide]
  rw [List.filter_eq_self.mpr fun c hc =>
    hall c (List.drop_subset i d (List.drop_subset j _ hc))]
  rw [List.take_append_drop, List.take_append_drop]

theorem splitOnP_splice3 {d : List Char} (hall : ∀ c ∈ d, isDigitCh c = true)
    (i j : Nat) :
    splitOnP (fun c => c = '-') (splice3 i j d) =
      [d.take i, (d.drop i).take j, (d.drop i).drop j] := by
  unfold splice3
  rw [splitOnP_append_sep _ (fun c hc => decide_eq_false
    (not_dash_of_digit (hall c (List.take_subset i d hc)))) (by decide)]
  rw [splitOnP_append_sep _ (fun c hc => decide_eq_false
    (not_dash_of_digit (hall c (List.drop_subset i d (List.take_subset j _ hc)))))
    (by decide)]
  rw [splitOnP_all_neg fun c hc => decide_eq_false
    (not_dash_of_digit (hall c (List.drop_subset i d (List.drop_subset j _ hc))))]

theorem hyphenFormatOk_splice3 {d : List Char}
    (hall : ∀ c ∈ d, isDigitCh c = true) {i j : Nat}
    (hi : 2 ≤ i) (hi4 : i ≤ 4) (hj : 2 ≤ j) (hj4 : j ≤ 4)
    (hlen : d.length = i + j + 4) :
    hyphenFormatOk (splice3 i j d) = true := by
  unfold hyphenFormatOk
  rw [splitOnP_splice3 hall i j]
  dsimp only
  have l1 : (d.take i).length = i := by simp [List.length_take]; omega
  have l2 : ((d.drop i).take j).length = j := by
    simp [List.length_take, List.length_drop]; omega
  have l3 : ((d.drop i).drop j).length = 4 := by
    simp [List.length_drop]; omega
  simp only [Bool.and_eq_true, List.all_eq_true, decide_eq_true_eq]
  refine ⟨⟨⟨⟨⟨?_, ?_⟩, ?_⟩, ?_⟩, ?_⟩, ?_⟩
  · exact fun c hc => hall c (List.take_subset i d hc)
  · rw [l1]; exact ⟨hi, hi4⟩
  · exact fun c hc => hall c (List.drop_subset i d (List.take_subset j _ hc))
  · rw [l2]; exact ⟨hj, hj4⟩
  · exact fun c hc => hall c (List.drop_subset i d (List.drop_subset j _ hc))
  · exact l3

theorem hyphenFormatOk_parts {s : List Char} (h : hyphenFormatOk s = true) :
    ∃ a b c, splitOnP (fun ch => ch = '-') s = [a, b, c] ∧
      (∀ ch ∈ a, isDigitCh ch = true) ∧ 2 ≤ a.length ∧ a.length ≤ 4 ∧
      (∀ ch ∈ b, isDigitCh ch = true) ∧ 2 ≤ b.length ∧ b.length ≤ 4 ∧
      (∀ ch ∈ c, isDigitCh ch = true) ∧ c.length = 4 := by
  unfold hyphenFormatOk at h
  split at h
  case h_1 a b c heq =>
    simp only [Bool.and_eq_true, List.all_eq_true, decide_eq_true_eq] at h
    exact ⟨a, b, c, heq, h.1.1.1.1.1, h.1.1.1.1.2.1, h.1.1.1.1.2.2,
      h.1.1.1.2, h.1.1.2.1, h.1.1.2.2, h.1.2, h.2⟩
  case h_2 => simp at h

theorem hyphenFormatOk_chars {s : List Char} (h : hyphenFormatOk s = true) :
    ∀ c ∈ s, isDigitCh c = true ∨ c = '-' := by
  obtain ⟨a, b, c3, heq, ha, _, _, hb, _, _, hc, _⟩ := hyphenFormatOk_parts h
  intro c hc2
  rcases @splitOnP_char_cover (fun ch => ch = '-') c s hc2 with ⟨x, hx, hcx⟩ | hd
  · rw [heq] at hx
    simp only [List.mem_cons, List.not_mem_nil, or_false] at hx
    rcases hx with rfl | rfl | rfl
    · exact Or.inl (ha c hcx)
    · exact Or.inl (hb c hcx)
    · exact Or.inl (hc c hcx)
  · exact Or.inr (by simpa using hd)

theorem hyphenFormatOk_digit_count {s : List Char}
    (h : hyphenFormatOk s = true) : 8 ≤ (digitsOf s).length := by
  obtain ⟨a, b, c3, heq, ha, ha2, _, hb, hb2, _, hc, hc4⟩ := hyphenFormatOk_parts h
  have hflat := @splitOnP_flatten (fun ch => decide (ch = '-')) s
  rw [heq] at hflat
  simp only [List.flatten_cons, List.flatten_nil, List.append_nil] at hflat
  have hco : List.filter (fun c => decide ¬ (decide (c = '-') = true)) s =
      digitsOf s := by
    apply List.filter_congr
    intro c hc2
    rcases hyphenFormatOk_chars h c hc2 with hd | rfl
    · simp [hd, not_dash_of_digit hd]
    · decide
  have hlen2 : a.length + b.length + c3.length = (digitsOf s).length := by
    rw [← hco, ← hflat]
    simp
    omega
  omega

theorem hyphenFormatOk_has_dash {s : List Char} (h : hyphenFormatOk s = true) :
    '-' ∈ s := by
  obtain ⟨a, b, c3, heq, _⟩ := hyphenFormatOk_parts h
  by_contra hnd
  have : splitOnP (fun ch => ch = '-') s = [s] :=
    splitOnP_all_neg fun c hc => decide_eq_false fun he => hnd (he ▸ hc)
  rw [this] at heq
  simp at heq

/-- The hyphen pass-through inputs are fixed points of `formatPhoneNumber`
(given the digit-count guard already checked by the caller). -/
theorem formatPhoneNumber_hyphen_fixed {s : List Char}
    (hok : hyphenFormatOk s = true) (hle : ¬ 11 < (digitsOf s).length) :
    formatPhoneNumber s = s := by
  have hne : s ≠ [] := by
    intro h; rw [h] at hok; simp [hyphenFormatOk, splitOnP] at hok
  unfold formatPhoneNumber
  rw [if_neg hne, if_neg hle, if_pos (by simpa using hyphenFormatOk_has_dash hok),
    if_pos hok]

/-- `splice3` outputs are fixed points of `formatPhoneNumber`. -/
theorem formatPhoneNumber_splice3_fixed {d : List Char}
    (hall : ∀ c ∈ d, isDigitCh c = true) {i j : Nat}
    (hi : 2 ≤ i) (hi4 : i ≤ 4) (hj : 2 ≤ j) (hj4 : j ≤ 4)
    (hlen : d.length = i + j + 4) (hle : d.length ≤ 11) :
    formatPhoneNumber (splice3 i j d) = splice3 i j d := by
  apply formatPhoneNumber_hyphen_fixed (hyphenFormatOk_splice3 hall hi hi4 hj hj4 hlen)
  rw [digitsOf_splice3 hall i j]
  omega

/-- The 8-digit `NNNN-NNNN` outputs are fixed points of `formatPhoneNumber`. -/
theorem formatPhoneNumber_split2_fixed {d : List Char}
    (hall : ∀ c ∈ d, isDigitCh c = true) (hlen : d.length = 8) :
    formatPhoneNumber (d.take 4 ++ '-' :: d.drop 4) = d.take 4 ++ '-' :: d.drop 4 := by
  have hchars : ∀ c ∈ d.take 4 ++ '-' :: d.drop 4, isDigitCh c = true ∨ c = '-' := by
    intro c hc
    simp only [List.mem_append, List.mem_cons] at hc
    rcases hc with h | h | h
    · exact Or.inl (hall c (List.take_subset 4 d h))
    · exact Or.inr h
    · exact Or.inl (hall c (List.drop_subset 4 d h))
  have hdig : digitsOf (d.take 4 ++ '-' :: d.drop 4) = d := by
    unfold digitsOf
    rw [List.filter_append,
      List.filter_eq_self.mpr fun c hc => hall c (List.take_subset 4 d hc)]
    rw [show List.filter isDigitCh ('-' :: d.drop 4) =
        List.filter isDigitCh (d.drop 4) from by simp [List.filter_cons]; decide]
    rw [List.filter_eq_self.mpr fun c hc => hall c (List.drop_subset 4 d hc),
      List.take_append_drop]
  have hne : d.take 4 ++ '-' :: d.drop 4 ≠ [] := by
    intro h
    have := congrArg List.length h
    simp at this
  have hsplit : splitOnP (fun c => c = '-') (d.take 4 ++ '-' :: d.drop 4) =
      [d.take 4, d.drop 4] := by
    rw [splitOnP_append_sep _ (fun c hc => decide_eq_false
        (not_dash_of_digit (hall c (List.take_subset 4 d hc)))) (by decide)]
    rw [splitOnP_all_neg fun c hc => decide_eq_false
      (not_dash_of_digit (hall c (List.drop_subset 4 d hc)))]
  have hokf : hyphenFormatOk (d.take 4 ++ '-' :: d.drop 4) = false := by
    unfold hyphenFormatOk
    rw [hsplit]
  unfold formatPhoneNumber
  rw [if_neg hne, if_neg (by rw [hdig]; omega),
    if_pos (by simp), hokf]
  simp only [Bool.false_eq_true, if_false]
  have hfd : digitsOf ((d.take 4 ++ '-' :: d.drop 4).filter (fun c => c ≠ '-')) = d := by
    unfold digitsOf
    rw [List.filter_filter]
    rw [show ((fun c => isDigitCh c && decide (c ≠ '-'))) =
      fun c => isDigitCh c from ?_]
    · exact hdig
    · funext c
      by_cases h : isDigitCh c
      · simp [h, not_dash_of_digit h]
      · simp [h]
  rw [hfd]
  unfold fmtByLen
  rw [if_neg (by omega), if_neg (by omega), if_pos hlen]

/-- Pure digit strings of length at most 7 are fixed points of
`formatPhoneNumber`. -/
theorem formatPhoneNumber_short_digits_fixed {d : List Char}
    (hall : ∀ c ∈ d, isDigitCh c = true) (hlen : d.length ≤ 7) :
    formatPhoneNumber d = d := by
  rcases eq_or_ne d [] with rfl | hne
  · rfl
  unfold formatPhoneNumber
  rw [if_neg hne, digitsOf_eq_self hall, if_neg (by omega)]
  rw [if_neg (by
    intro hcon
    have hd : '-' ∈ d := by simpa using hcon
    exact absurd (hall '-' hd) (by decide))]
  unfold fmtByLen
  rw [if_neg (by omega), if_neg (by omega), if_neg (by omega), if_neg (by omega)]

theorem digitsOf_filter_ne_dash (v : List Char) :
    digitsOf (v.filter (fun c => c ≠ '-')) = digitsOf v := by
  unfold digitsOf
  rw [List.filter_filter]
  congr 1
  funext c
  by_cases h : isDigitCh c
  · simp [h, not_dash_of_digit h]
  · simp [h]

/-- The 9-digit `NNN-NNN-NNN` outputs are fixed points (they fail the
hyphen-shape test, get stripped, and re-format identically). -/
theorem formatPhoneNumber_split333_fixed {d : List Char}
    (hall : ∀ c ∈ d, isDigitCh c = true) (hlen : d.length = 9) :
    formatPhoneNumber (splice3 3 3 d) = splice3 3 3 d := by
  have hsplit := splitOnP_splice3 hall 3 3
  have l3 : ((d.drop 3).drop 3).length = 3 := by simp [List.length_drop]; omega
  have hokf : hyphenFormatOk (splice3 3 3 d) = false := by
    unfold hyphenFormatOk
    rw [hsplit]
    simp only [Bool.and_eq_false_iff]
    right
    simp only [decide_eq_false_iff_not]
    omega
  unfold formatPhoneNumber
  rw [if_neg (splice3_ne_nil 3 3 d), digitsOf_splice3 hall 3 3,
    if_neg (by omega), if_pos (by simpa using dash_mem_splice3 3 3 d), hokf]
  simp only [Bool.false_eq_true, if_false]
  rw [digitsOf_filter_ne_dash, digitsOf_splice3 hall 3 3]
  unfold fmtByLen
  rw [if_neg (by omega), if_neg (by omega), if_neg (by omega), if_pos hlen]

theorem fmt10_splice (d : List Char) :
    fmt10 d = splice3 2 4 d ∨ fmt10 d = splice3 3 3 d ∨ fmt10 d = splice3 4 2 d := by
  unfold fmt10
  split_ifs <;> simp

theorem fmtByLen_cases (d : List Char) (hle : d.length ≤ 11) :
    (∃ i j, 2 ≤ i ∧ i ≤ 4 ∧ 2 ≤ j ∧ j ≤ 4 ∧ d.length = i + j + 4 ∧
      fmtByLen d = splice3 i j d) ∨
    (d.length = 8 ∧ fmtByLen d = d.take 4 ++ '-' :: d.drop 4) ∨
    (d.length = 9 ∧ fmtByLen d = splice3 3 3 d) ∨
    (d.length ≤ 7 ∧ fmtByLen d = d) := by
  unfold fmtByLen
  by_cases h10 : d.length = 10
  · rw [if_pos h10]
    rcases fmt10_splice d with h | h | h
    · exact Or.inl ⟨2, 4, by omega, by omega, by omega, by omega, by omega, h⟩
    · exact Or.inl ⟨3, 3, by omega, by omega, by omega, by omega, by omega, h⟩
    · exact Or.inl ⟨4, 2, by omega, by omega, by omega, by omega, by omega, h⟩
  · rw [if_neg h10]
    by_cases h11 : d.length = 11
    · rw [if_pos h11]
      exact Or.inl ⟨3, 4, by omega, by omega, by omega, by omega, by omega, rfl⟩
    · rw [if_neg h11]
      by_cases h8 : d.length = 8
      · rw [if_pos h8]
        exact Or.inr (Or.inl ⟨h8, rfl⟩)
      · rw [if_neg h8]
        by_cases h9 : d.length = 9
        · rw [if_pos h9]
          exact Or.inr (Or.inr (Or.inl ⟨h9, rfl⟩))
        · rw [if_neg h9]
          exact Or.inr (Or.inr (Or.inr ⟨by omega, rfl⟩))

/-- `fmtByLen` outputs on digit-pure inputs of plausible length are fixed
points of `formatPhoneNumber`. -/
theorem fmtByLen_output_fixed {d : List Char}
    (hall : ∀ c ∈ d, isDigitCh c = true) (hle : d.length ≤ 11) :
    formatPhoneNumber (fmtByLen d) = fmtByLen d := by
  rcases fmtByLen_cases d hle with
    ⟨i, j, hi, hi4, hj, hj4, hlen, heq⟩ | ⟨h8, heq⟩ | ⟨h9, heq⟩ | ⟨h7, heq⟩
  · rw [heq]
    exact formatPhoneNumber_splice3_fixed hall hi hi4 hj hj4 hlen (by omega)
  · rw [heq]
    exact formatPhoneNumber_split2_fixed hall h8
  · rw [heq]
    exact formatPhoneNumber_split333_fixed hall h9
  · rw [heq]
    exact formatPhoneNumber_short_digits_fixed hall h7

/-- `formatPhoneNumber` is idempotent: its outputs are fixed points. -/
theorem formatPhoneNumber_fixed (u : List Char) :
    formatPhoneNumber (formatPhoneNumber u) = formatPhoneNumber u := by
  by_cases hne : u = []
  · subst hne; rfl
  by_cases hlen : 11 < (digitsOf u).length
  · have hv : formatPhoneNumber u = [] := by
      unfold formatPhoneNumber
      rw [if_neg hne, if_pos hlen]
    rw [hv]; rfl
  by_cases hdash : u.contains '-' = true
  · by_cases hok : hyphenFormatOk u = true
    · have hv : formatPhoneNumber u = u := by
        unfold formatPhoneNumber
        rw [if_neg hne, if_neg hlen, if_pos hdash, if_pos hok]
      rw [hv]
      exact formatPhoneNumber_hyphen_fixed hok hlen
    · have hv : formatPhoneNumber u =
          fmtByLen (digitsOf (u.filter (fun c => c ≠ '-'))) := by
        unfold formatPhoneNumber
        rw [if_neg hne, if_neg hlen, if_pos hdash, if_neg hok]
      rw [hv, digitsOf_filter_ne_dash]
      exact fmtByLen_output_fixed (fun x hx => digitsOf_mem_digit hx) (by omega)
  · have hv : formatPhoneNumber u = fmtByLen (digitsOf u) := by
      unfold formatPhoneNumber
      rw [if_neg hne, if_neg hlen, if_neg hdash]
    rw [hv]
    exact fmtByLen_output_fixed (fun x hx => digitsOf_mem_digit hx) (by omega)

theorem fmtByLen_chars {d : List Char} (hall : ∀ c ∈ d, isDigitCh c = true) :
    ∀ c ∈ fmtByLen d, isDigitCh c = true ∨ c = '-' := by
  have hsp : ∀ i j : Nat, ∀ c ∈ splice3 i j d, isDigitCh c = true ∨ c = '-' := by
    intro i j c hc
    rcases splice3_chars hc with h | h
    · exact Or.inl (hall c h)
    · exact Or.inr h
  intro c hc
  unfold fmtByLen at hc
  split_ifs at hc
  · rcases fmt10_splice d with h | h | h <;> rw [h] at hc <;> exact hsp _ _ c hc
  · exact hsp _ _ c hc
  · simp only [List.mem_append, List.mem_cons] at hc
    rcases hc with h | h | h
    · exact Or.inl (hall c (List.take_subset 4 d h))
    · exact Or.inr h
    · exact Or.inl (hall c (List.drop_subset 4 d h))
  · exact hsp _ _ c hc
  · exact Or.inl (hall c hc)

/-- Every character of a `formatPhoneNumber` output is a digit or a hyphen. -/
theorem formatPhoneNumber_chars (u : List Char) :
    ∀ c ∈ formatPhoneNumber u, isDigitCh c = true ∨ c = '-' := by
  intro c hc
  unfold formatPhoneNumber at hc
  split_ifs at hc with h1 h2 h3 h4
  · simp at hc
  · simp at hc
  · exact hyphenFormatOk_chars h4 c hc
  · exact fmtByLen_chars (fun x hx => digitsOf_mem_digit hx) c hc
  · exact fmtByLen_chars (fun x hx => digitsOf_mem_digit hx) c hc

/-! ## Idempotence of the phone-number post-processing path -/

theorem phone_char_not_comma {c : Char} (h : isDigitCh c = true ∨ c = '-') :
    isCommaCh c = false := by
  rcases h with h | rfl
  · simp only [isDigitCh, decide_eq_true_eq] at h
    have h1 : (',').toNat = 44 := rfl
    have h2 : ('、').toNat = 12289 := rfl
    simp only [isCommaCh, Bool.or_eq_false_iff]
    exact ⟨decide_eq_false (ne_of_toNat_ne (by omega)),
      decide_eq_false (ne_of_toNat_ne (by omega))⟩
  · decide

theorem phone_char_not_ws {c : Char} (h : isDigitCh c = true ∨ c = '-') :
    isJsWs c = false := by
  rcases h with h | rfl
  · exact (plainChar_of_digit h).1
  · decide

theorem plainChar_phone {c : Char} (h : isDigitCh c = true ∨ c = '-' ∨ c = ',') :
    PlainChar c := by
  rcases h with h | rfl | rfl
  · exact plainChar_of_digit h
  · exact plainChar_dash
  · exact plainChar_comma

theorem cleanPhone_eq_self {l : List Char}
    (h : ∀ c ∈ l, isDigitCh c = true ∨ c = '-') : cleanPhone l = l :=
  List.filter_eq_self.mpr fun c hc => by
    rcases h c hc with h1 | rfl
    · simp [h1]
    · decide

/-- Unfolding of the phone-number branch of `postProcessOcrResult`. -/
theorem postProcess_phone_eq (x : List Char) (hx : x ≠ []) :
    postProcessOcrResult x "phone-number" =
      (if (normalizeBase x).contains ',' || (normalizeBase x).contains '、' then
        joinComma ((splitOnP isCommaCh (normalizeBase x)).map
          (fun num => formatPhoneNumber (cleanPhone (jsTrim num))))
      else formatPhoneNumber (cleanPhone (normalizeBase x))) := by
  unfold postProcessOcrResult
  rw [if_neg hx]
  norm_num
  rw [if_neg (show ("phone-number" : String) ≠ "payee-name" from by decide)]

/-- Every character of a phone-number post-processing output is a digit, a
hyphen, or the joining comma. -/
theorem postProcess_phone_chars (x : List Char) :
    ∀ c ∈ postProcessOcrResult x "phone-number",
      isDigitCh c = true ∨ c = '-' ∨ c = ',' := by
  intro c hc
  by_cases hx : x = []
  · subst hx; simp [postProcessOcrResult] at hc
  rw [postProcess_phone_eq x hx] at hc
  split_ifs at hc with hcomma
  · rcases mem_joinComma hc with rfl | ⟨e, he, hce⟩
    · exact Or.inr (Or.inr rfl)
    · obtain ⟨w, _, rfl⟩ := List.mem_map.mp he
      rcases formatPhoneNumber_chars _ c hce with h | h
      · exact Or.inl h
      · exact Or.inr (Or.inl h)
  · rcases formatPhoneNumber_chars _ c hc with h | h
    · exact Or.inl h
    · exact Or.inr (Or.inl h)

/-- The phone-number post-processing path is idempotent. -/
theorem postProcess_phone_idem (x : List Char) :
    postProcessOcrResult (postProcessOcrResult x "phone-number") "phone-number"
      = postProcessOcrResult x "phone-number" := by
  by_cases hx : x = []
  · subst hx; rfl
  have hz := postProcess_phone_eq x hx
  by_cases hcomma :
      ((normalizeBase x).contains ',' || (normalizeBase x).contains '、') = true
  · rw [if_pos hcomma] at hz
    have hsep : ∃ c ∈ normalizeBase x, isCommaCh c = true := by
      rcases Bool.or_eq_true_iff.mp hcomma with hc | hc
      · exact ⟨',', by simpa using hc, by decide⟩
      · exact ⟨'、', by simpa using hc, by decide⟩
    set L := (splitOnP isCommaCh (normalizeBase x)).map
      (fun num => formatPhoneNumber (cleanPhone (jsTrim num))) with hL
    have hL2 : 2 ≤ L.length := by
      rw [hL, List.length_map]
      exact two_le_splitOnP_length hsep
    have helem : ∀ e ∈ L, ∀ c ∈ e, isDigitCh c = true ∨ c = '-' := by
      rw [hL]
      intro e he
      obtain ⟨w, _, rfl⟩ := List.mem_map.mp he
      exact formatPhoneNumber_chars _
    obtain ⟨a, b, t2, hLshape⟩ : ∃ a b t2, L = a :: b :: t2 := by
      match L, hL2 with
      | a :: b :: t2, _ => exact ⟨a, b, t2, rfl⟩
    have hzc : ',' ∈ joinComma L := hLshape ▸ joinComma_contains_comma t2
    have hzne : joinComma L ≠ [] := List.ne_nil_of_mem hzc
    have hzchars : ∀ c ∈ joinComma L, isDigitCh c = true ∨ c = '-' ∨ c = ',' := by
      intro c hc
      rcases mem_joinComma hc with rfl | ⟨e, he, hce⟩
      · exact Or.inr (Or.inr rfl)
      · rcases helem e he c hce with h | h
        · exact Or.inl h
        · exact Or.inr (Or.inl h)
    rw [hz, postProcess_phone_eq _ hzne,
      normalizeBase_eq_self (fun c hc => plainChar_phone (hzchars c hc))]
    rw [if_pos (by
      apply Bool.or_eq_true_iff.mpr
      exact Or.inl (by simpa using hzc))]
    rw [splitOnP_joinComma (by rw [hLshape]; simp)
      (fun e he c hc => phone_char_not_comma (helem e he c hc))]
    rw [show L.map (fun num => formatPhoneNumber (cleanPhone (jsTrim num))) = L
      from map_id_of_mem ?_]
    intro e he
    have hechars := helem e he
    rw [jsTrim_eq_self (fun c hc => phone_char_not_ws (hechars c hc)),
      cleanPhone_eq_self hechars]
    obtain ⟨w, _, rfl⟩ := List.mem_map.mp (hL ▸ he)
    exact formatPhoneNumber_fixed _
  · rw [if_neg hcomma] at hz
    have hvchars := formatPhoneNumber_chars (cleanPhone (normalizeBase x))
    by_cases hvnil : formatPhoneNumber (cleanPhone (normalizeBase x)) = []
    · rw [hz, hvnil]
      rfl
    rw [hz, postProcess_phone_eq _ hvnil,
      normalizeBase_eq_self (fun c hc => plainChar_phone (by
        rcases hvchars c hc with h | h
        · exact Or.inl h
        · exact Or.inr (Or.inl h)))]
    rw [if_neg (by
      simp only [Bool.or_eq_true]
      rintro (hc | hc)
      · have hm : ',' ∈ formatPhoneNumber (cleanPhone (normalizeBase x)) := by
          simpa using hc
        have := phone_char_not_comma (hvchars ',' hm)
        simp [isCommaCh] at this
      · have hm : '、' ∈ formatPhoneNumber (cleanPhone (normalizeBase x)) := by
          simpa using hc
        have := phone_char_not_comma (hvchars '、' hm)
        simp [isCommaCh] at this)]
    rw [cleanPhone_eq_self hvchars]
    exact formatPhoneNumber_fixed _

/-! ## `APIRequestQueue` lemmas -/

theorem runQueue_map_id (m d : Nat) :
    ∀ (cs : List QCall) (now lastReq : Nat),
      (runQueue m d now lastReq cs).map (fun t => t.id) =
        cs.map (fun c => c.id) := by
  intro cs
  induction cs with
  | nil => intro now lastReq; rfl
  | cons c rest ih =>
    intro now lastReq
    unfold runQueue
    simp only [List.map_cons, List.cons.injEq, true_and]
    exact ih _ _

theorem runQueue_map_ok (m d : Nat) :
    ∀ (cs : List QCall) (now lastReq : Nat),
      (runQueue m d now lastReq cs).map (fun t => t.ok) =
        cs.map (fun c => c.ok) := by
  intro cs
  induction cs with
  | nil => intro now lastReq; rfl
  | cons c rest ih =>
    intro now lastReq
    unfold runQueue
    simp only [List.map_cons, List.cons.injEq, true_and]
    exact ih _ _

theorem runQueue_start_lb (m d : Nat) :
    ∀ (cs : List QCall) (now lastReq : Nat),
      ∀ t ∈ runQueue m d now lastReq cs, lastReq + m ≤ t.startTime := by
  intro cs
  induction cs with
  | nil => intro now lastReq t ht; simp [runQueue] at ht
  | cons c rest ih =>
    intro now lastReq t ht
    unfold runQueue at ht
    rcases List.mem_cons.mp ht with rfl | ht2
    · simp only [ge_iff_le, le_max_iff]
      omega
    · have := ih _ _ t ht2
      omega

theorem runQueue_chain (m d : Nat) :
    ∀ (cs : List QCall) (now lastReq : Nat),
      List.Chain' (fun a b => a.startTime + m ≤ b.startTime)
        (runQueue m d now lastReq cs) := by
  intro cs
  induction cs with
  | nil => intro now lastReq; simp [runQueue]
  | cons c rest ih =>
    intro now lastReq
    unfold runQueue
    apply List.Chain'.cons'
    · exact ih _ _
    · intro t ht
      have hmem : t ∈ runQueue m d
          (max now (lastReq + m) + c.duration + d)
          (max now (lastReq + m) + c.duration) rest :=
        List.mem_of_mem_head? ht
      have := runQueue_start_lb m d rest _ _ t hmem
      simp only
      omega

theorem runQueue_spacing (m d : Nat) (cs : List QCall) (now lastReq : Nat)
    (i : Nat) (h : i + 1 < (runQueue m d now lastReq cs).length) :
    ((runQueue m d now lastReq cs).get ⟨i, by omega⟩).startTime + m ≤
      ((runQueue m d now lastReq cs).get ⟨i + 1, h⟩).startTime :=
  List.chain'_iff_get.mp (runQueue_chain m d cs now lastReq) i (by omega)

/-! ## Cache lemmas -/

theorem mapSet_length_le (cache : Cache) (k v : List Char) :
    (mapSet cache k v).length ≤ cache.length + 1 := by
  unfold mapSet
  split_ifs <;> simp

theorem cachePutLimited_le (cache : Cache) (k v : List Char)
    (h : cache.length ≤ 30) : (cachePutLimited cache k v).length ≤ 30 := by
  have := mapSet_length_le cache k v
  simp only [cachePutLimited]
  split_ifs with h2
  · simp only [List.length_drop]
    omega
  · omega

theorem cachePutLimited_fresh_full (cache : Cache) (k v : List Char)
    (hfresh : cacheGet cache k = none) (hfull : cache.length = 30) :
    cachePutLimited cache k v = cache.drop 1 ++ [(k, v)] := by
  have hnone : cache.find? (fun p => p.1 = k) = none := by
    unfold cacheGet at hfresh
    cases h : cache.find? (fun p => p.1 = k) with
    | none => rfl
    | some p => rw [h] at hfresh; simp at hfresh
  have hany : cache.any (fun p => decide (p.1 = k)) = false := by
    simp only [List.any_eq_false]
    intro p hp
    have := List.find?_eq_none.mp hnone p hp
    simpa using this
  have hset : mapSet cache k v = cache ++ [(k, v)] := by
    unfold mapSet
    rw [if_neg (by rw [hany]; simp)]
  simp only [cachePutLimited, hset]
  rw [if_pos (by simp [hfull])]
  cases cache with
  | nil => simp at hfull
  | cons a t => simp

theorem cacheGet_empty (k : List Char) : cacheGet [] k = none := rfl

theorem onStorageChanged_clears (ns : String) (keys : List String)
    (cache : Cache) (hns : ns = "local")
    (hkey : keys.any (fun k => relevantSettingsKeys.contains k) = true) :
    ∀ k, cacheGet (onStorageChanged ns keys cache) k = none := by
  intro k
  unfold onStorageChanged
  rw [if_pos ⟨hns, hkey⟩]
  rfl

/-! ## `compressImageToSize` lemmas -/

theorem compressGo_spec (env : ImgEnv) (img : List Char) (target : ℚ) :
    ∀ (n i : Nat),
      (compressGo env img target i n = .error .exhausted ∧
        ∀ j, i ≤ j → j < i + n →
          ¬ estimatedSizeMB (ladderStep env img j) ≤ target) ∨
      (∃ r, compressGo env img target i n = .ok r ∧
        estimatedSizeMB r ≤ target ∧
        ∃ j, i ≤ j ∧ j < i + n ∧ r = ladderStep env img j ∧
          ∀ j2, i ≤ j2 → j2 < j →
            ¬ estimatedSizeMB (ladderStep env img j2) ≤ target) := by
  intro n
  induction n with
  | zero =>
    intro i
    exact Or.inl ⟨rfl, fun j h1 h2 => by omega⟩
  | succ n ih =>
    intro i
    unfold compressGo
    by_cases hsize : estimatedSizeMB (ladderStep env img i) ≤ target
    · rw [if_pos hsize]
      exact Or.inr ⟨ladderStep env img i, rfl, hsize,
        i, le_refl i, by omega, rfl, fun j2 h1 h2 => by omega⟩
    · rw [if_neg hsize]
      rcases ih (i + 1) with ⟨herr, hall⟩ | ⟨r, hok, hle, j, hj1, hj2, hjr, hmin⟩
      · refine Or.inl ⟨herr, fun j h1 h2 => ?_⟩
        rcases Nat.eq_or_lt_of_le h1 with rfl | h3
        · exact hsize
        · exact hall j h3 (by omega)
      · refine Or.inr ⟨r, hok, hle, j, by omega, by omega, hjr,
          fun j2 h1 h2 => ?_⟩
        rcases Nat.eq_or_lt_of_le h1 with rfl | h3
        · exact hsize
        · exact hmin j2 h3 h2

/-! ## Gemini retry lemmas -/

theorem geminiRetry_success (outcomes : Nat → AttemptOutcome) (t : List Char)
    (h : attemptResult (outcomes 0) = .ok t) :
    extractTextWithGeminiRetry outcomes = (.ok t, []) := by
  unfold extractTextWithGeminiRetry
  simp only [geminiMaxRetries]
  unfold geminiLoop
  rw [h]

theorem geminiRetry_permanent (outcomes : Nat → AttemptOutcome) (e : List Char)
    (h : attemptResult (outcomes 0) = .error e)
    (htemp : isTemporaryError e = false) :
    extractTextWithGeminiRetry outcomes = (.error e, []) := by
  unfold extractTextWithGeminiRetry
  simp only [geminiMaxRetries]
  unfold geminiLoop
  rw [h]
  dsimp only
  rw [if_neg (by simp [htemp])]

theorem geminiRetry_temporary (outcomes : Nat → AttemptOutcome) (e : List Char)
    (h : attemptResult (outcomes 0) = .error e)
    (htemp : isTemporaryError e = true) :
    extractTextWithGeminiRetry outcomes =
      (match attemptResult (outcomes 1) with
        | .ok t => .ok t
        | .error e2 => .error e2, [1000]) := by
  have hb : backoffDelayMs (0 + 1) = 1000 := by
    norm_num [backoffDelayMs]
  unfold extractTextWithGeminiRetry
  simp only [geminiMaxRetries]
  unfold geminiLoop
  rw [h]
  dsimp only
  rw [if_pos ⟨htemp, by omega⟩]
  unfold geminiLoop
  cases h1 : attemptResult (outcomes 1) with
  | ok t => simp [hb]
  | error e2 =>
    dsimp only
    rw [if_neg (by omega)]
    simp [hb]

/-! ## `parseMultiFieldResult` lemmas

The extraction theorems are stated for values over the plain Latin/digit
alphabet, on which every normalization and filtering stage is inert. -/

def latinDigitChars : List Char :=
  "ABCDEFGHIJKLMNOPQRSTUVWXYZabcdefghijklmnopqrstuvwxyz0123456789".toList

theorem latin_plain : ∀ ch ∈ latinDigitChars, PlainChar ch := by decide

theorem latin_not_ws : ∀ ch ∈ latinDigitChars, isJsWs ch = false := by decide

theorem latin_not_lineterm : ∀ ch ∈ latinDigitChars, isLineTerm ch = false := by
  decide

theorem latin_ne : ∀ ch ∈ latinDigitChars,
    ch ≠ ':' ∧ ch ≠ ',' ∧ ch ≠ '、' ∧ ch ≠ '電' ∧ ch ≠ '会' ∧ ch ≠ '\n' := by
  decide

theorem ngWords_heads :
    ∀ w ∈ ngWordsList, w ≠ [] ∧ w.headD ' ' ∉ latinDigitChars := by decide

theorem isPrefixOf_append_self : ∀ (l r : List Char), l.isPrefixOf (l ++ r) = true := by
  intro l
  induction l with
  | nil => intro r; cases r <;> rfl
  | cons a t ih =>
    intro r
    show ((a == a) && t.isPrefixOf (t ++ r)) = true
    simp [ih r]

theorem firstNgAt_none_latin {c : Char} (hc : c ∈ latinDigitChars)
    (r : List Char) : firstNgAt (c :: r) = none := by
  unfold firstNgAt
  rw [List.find?_eq_none]
  intro w hw
  obtain ⟨hne, hhead⟩ := ngWords_heads w hw
  obtain ⟨h0, t, rfl⟩ := List.exists_cons_of_ne_nil hne
  simp only [List.headD_cons] at hhead
  show ¬ ((h0 == c) && t.isPrefixOf r) = true
  have : h0 ≠ c := fun he => hhead (he ▸ hc)
  simp [this]

theorem removeNgScanAux_latin : ∀ (fuel : Nat) (s : List Char),
    (∀ ch ∈ s, ch ∈ latinDigitChars) → removeNgScanAux fuel s = s := by
  intro fuel
  induction fuel with
  | zero => intro s _; rfl
  | succ n ih =>
    intro s h
    cases s with
    | nil => rfl
    | cons c rest =>
      show (match firstNgAt (c :: rest) with
        | some w => removeNgScanAux n ((c :: rest).drop w.length)
        | none => c :: removeNgScanAux n rest) = c :: rest
      rw [firstNgAt_none_latin (h c (by simp)) rest]
      rw [ih rest fun ch hch => h ch (by simp [hch])]

theorem removeNgScan_latin {s : List Char}
    (h : ∀ ch ∈ s, ch ∈ latinDigitChars) : removeNgScan s = s :=
  removeNgScanAux_latin s.length s h

theorem collapseWsAux_no_ws : ∀ (s : List Char),
    (∀ ch ∈ s, isJsWs ch = false) → ∀ b, collapseWsAux b s = s := by
  intro s
  induction s with
  | nil => intro _ b; rfl
  | cons c rest ih =>
    intro h b
    unfold collapseWsAux
    rw [h c (by simp)]
    simp only [Bool.false_eq_true, if_false, List.cons.injEq, true_and]
    exact ih (fun ch hch => h ch (by simp [hch])) false

theorem stripLabelTail_latin : ∀ (s : List Char),
    (∀ ch ∈ s, ch ∈ latinDigitChars) → stripLabelTail s = s := by
  intro s
  induction s with
  | nil => intro _; rfl
  | cons c rest ih =>
    intro h
    unfold stripLabelTail
    rw [if_neg ?hcond]
    · rw [ih fun ch hch => h ch (by simp [hch])]
    case hcond =>
      unfold labelTailAt
      have hne : '会' ≠ c := fun he => by
        have := (latin_ne c (h c (by simp))).2.2.2.2.1
        exact this he.symm
      rw [show labelCompany = '会' :: "社名:".toList from rfl]
      show ¬ ((('会' == c) && _) && _) = true
      simp [hne]

theorem stripColonTail_latin : ∀ (s : List Char),
    (∀ ch ∈ s, ch ∈ latinDigitChars) → stripColonTail s = s := by
  intro s
  induction s with
  | nil => intro _; rfl
  | cons c rest ih =>
    intro h
    unfold stripColonTail
    rw [if_neg ?hcond]
    · rw [ih fun ch hch => h ch (by simp [hch])]
    case hcond =>
      have hne : c ≠ ':' := (latin_ne c (h c (by simp))).1
      simp [hne]

theorem contains_comma_false_latin {s : List Char}
    (h : ∀ ch ∈ s, ch ∈ latinDigitChars) :
    (s.contains ',' || s.contains '、') = false := by
  simp only [Bool.or_eq_false_iff]
  constructor
  · rw [List.contains_eq_any_beq, List.any_eq_false]
    intro ch hch
    have hne := (latin_ne ch (h ch hch)).2.1
    simp only [beq_iff_eq]
    exact fun he => hne he.symm
  · rw [List.contains_eq_any_beq, List.any_eq_false]
    intro ch hch
    have hne := (latin_ne ch (h ch hch)).2.2.1
    simp only [beq_iff_eq]
    exact fun he => hne he.symm

theorem removeNgWords_latin {s : List Char}
    (h : ∀ ch ∈ s, ch ∈ latinDigitChars) : removeNgWords s = s := by
  unfold removeNgWords
  dsimp only
  rw [removeNgScan_latin h, contains_comma_false_latin h]
  simp only [Bool.false_eq_true, if_false]
  rw [jsTrim_eq_self fun ch hch => latin_not_ws ch (h ch hch)]
  rw [stripLabelTail_latin s h, stripColonTail_latin s h]

/-- Unfolding of the payee-name branch of `postProcessOcrResult`. -/
theorem postProcess_payee_eq (x : List Char) (hx : x ≠ []) :
    postProcessOcrResult x "payee-name" =
      jsTrim (collapseWs (removeNgWords (normalizeBase x))) := by
  unfold postProcessOcrResult
  rw [if_neg hx]
  dsimp only
  rw [if_neg (show ¬ ("payee-name" : String) = "phone-number" from by decide)]
  rw [if_pos (rfl : ("payee-name" : String) = "payee-name")]
  rw [if_pos (rfl : ("payee-name" : String) = "payee-name")]

theorem postProcess_payee_latin {s : List Char}
    (h : ∀ ch ∈ s, ch ∈ latinDigitChars) :
    postProcessOcrResult s "payee-name" = s := by
  rcases eq_or_ne s [] with rfl | hne
  · rfl
  rw [postProcess_payee_eq s hne]
  rw [normalizeBase_eq_self fun ch hch => latin_plain ch (h ch hch)]
  rw [removeNgWords_latin h]
  rw [show collapseWs s = s from
    collapseWsAux_no_ws s (fun ch hch => latin_not_ws ch (h ch hch)) false]
  exact jsTrim_eq_self fun ch hch => latin_not_ws ch (h ch hch)

theorem postProcess_phone_digits {p : List Char}
    (h : ∀ ch ∈ p, isDigitCh ch = true) :
    postProcessOcrResult p "phone-number" = formatPhoneNumber p := by
  rcases eq_or_ne p [] with rfl | hne
  · rfl
  rw [postProcess_phone_eq p hne]
  rw [normalizeBase_eq_self fun ch hch => plainChar_of_digit (h ch hch)]
  rw [if_neg (by
    simp only [Bool.or_eq_true]
    rintro (hc | hc)
    · have hm : ',' ∈ p := by simpa using hc
      exact absurd (h ',' hm) (by decide)
    · have hm : '、' ∈ p := by simpa using hc
      exact absurd (h '、' hm) (by decide))]
  rw [cleanPhone_eq_self fun ch hch => Or.inl (h ch hch)]

theorem extractField_not_found {lab : List Char} :
    ∀ (text : List Char), hasSub lab text = false →
      extractField lab text = none := by
  intro text
  induction text with
  | nil => intro _; rfl
  | cons c rest ih =>
    intro h
    unfold hasSub at h
    simp only [Bool.or_eq_false_iff] at h
    unfold extractField
    rw [if_neg (by simp [h.1])]
    exact ih h.2

theorem extractField_here {lab : List Char} (hlab : lab ≠ [])
    {rest : List Char} {v : List Char} (hm : matchLabelValue? rest = some v) :
    extractField lab (lab ++ rest) = some v := by
  obtain ⟨lc, lt, rfl⟩ := List.exists_cons_of_ne_nil hlab
  show (if (lc :: lt).isPrefixOf (lc :: (lt ++ rest)) then
      match matchLabelValue? ((lc :: (lt ++ rest)).drop (lc :: lt).length) with
      | some v => some v
      | none => extractField (lc :: lt) (lt ++ rest)
    else extractField (lc :: lt) (lt ++ rest)) = some v
  rw [if_pos (by
    have h2 := isPrefixOf_append_self (lc :: lt) rest
    rw [List.cons_append] at h2
    exact h2)]
  rw [show (lc :: (lt ++ rest)).drop (lc :: lt).length = rest from by
    have h2 := List.drop_left (lc :: lt) rest
    rw [List.cons_append] at h2
    exact h2]
  rw [hm]

theorem extractField_skip {h0 : Char} {lt : List Char} :
    ∀ (pre tail : List Char), (∀ ch ∈ pre, ch ≠ h0) →
      extractField (h0 :: lt) (pre ++ tail) = extractField (h0 :: lt) tail := by
  intro pre
  induction pre with
  | nil => intro tail _; rfl
  | cons c rest ih =>
    intro tail h
    show (if (h0 :: lt).isPrefixOf (c :: (rest ++ tail)) then _ else
      extractField (h0 :: lt) (rest ++ tail)) = _
    rw [if_neg (by
      show ¬ ((h0 == c) && lt.isPrefixOf (rest ++ tail)) = true
      have : h0 ≠ c := fun he => h c (by simp) he.symm
      simp [this])]
    exact ih tail fun ch hch => h ch (by simp [hch])

theorem digit_not_lineterm {a : Char} (h : isDigitCh a = true) :
    isLineTerm a = false := by
  simp only [isDigitCh, decide_eq_true_eq] at h
  have h1 : ('\n').toNat = 10 := rfl
  have h2 : ('\r').toNat = 13 := rfl
  simp only [isLineTerm, Bool.or_eq_false_iff]
  refine ⟨⟨⟨?_, ?_⟩, ?_⟩, ?_⟩ <;>
    first
      | exact decide_eq_false (ne_of_toNat_ne (by omega))
      | exact decide_eq_false (by omega)

theorem matchLabelValue_space_line {c rest2 : List Char} (hcne : c ≠ [])
    (hlat : ∀ ch ∈ c, ch ∈ latinDigitChars) :
    matchLabelValue? (' ' :: (c ++ '\n' :: rest2)) = some c := by
  obtain ⟨c0, ct, rfl⟩ := List.exists_cons_of_ne_nil hcne
  unfold matchLabelValue?
  dsimp only
  have hdrop : (' ' :: ((c0 :: ct) ++ '\n' :: rest2)).dropWhile isJsWs =
      (c0 :: ct) ++ '\n' :: rest2 := by
    rw [List.dropWhile_cons, show isJsWs ' ' = true from by decide]
    simp only [if_true, List.cons_append, List.dropWhile_cons,
      latin_not_ws c0 (hlat c0 (by simp))]
    simp
  rw [hdrop]
  have htake : ((c0 :: ct) ++ '\n' :: rest2).takeWhile
      (fun ch => ¬ isLineTerm ch) = c0 :: ct := by
    rw [takeWhile_append_of_all _ (fun a ha => by
      simp [latin_not_lineterm a (hlat a ha)])]
    rw [List.takeWhile_cons, show isLineTerm '\n' = true from by decide]
    simp
  rw [htake]
  rw [show ((c0 :: ct) ++ '\n' :: rest2).drop (c0 :: ct).length =
    '\n' :: rest2 from List.drop_left _ _]
  rw [if_pos (show ('\n' :: rest2).head? = some '\n' ∨ '\n' :: rest2 = []
    from Or.inl rfl)]

theorem matchLabelValue_space_end {p : List Char}
    (hdig : ∀ ch ∈ p, isDigitCh ch = true) :
    matchLabelValue? (' ' :: p) = some p := by
  unfold matchLabelValue?
  dsimp only
  have hdrop : (' ' :: p).dropWhile isJsWs = p := by
    rw [List.dropWhile_cons, show isJsWs ' ' = true from by decide]
    simp only [if_true]
    exact dropWhile_eq_self_of_none fun a ha =>
      phone_char_not_ws (Or.inl (hdig a ha))
  rw [hdrop]
  have htake : p.takeWhile (fun ch => ¬ isLineTerm ch) = p :=
    takeWhile_eq_self_of_all fun a ha => by
      simp [digit_not_lineterm (hdig a ha)]
  rw [htake]
  rw [List.drop_length]
  rw [if_pos (show ([] : List Char).head? = some '\n' ∨ ([] : List Char) = []
    from Or.inr rfl)]

theorem isPhoneLabelOnly_latin {c : List Char} (hcne : c ≠ [])
    (h : ∀ ch ∈ c, ch ∈ latinDigitChars) : isPhoneLabelOnly c = false := by
  obtain ⟨c0, ct, rfl⟩ := List.exists_cons_of_ne_nil hcne
  unfold isPhoneLabelOnly
  dsimp only
  rw [dropWhile_eq_self_of_none fun a ha => latin_not_ws a (h a ha)]
  have hne : '電' ≠ c0 := fun he =>
    (latin_ne c0 (h c0 (by simp))).2.2.2.1 he.symm
  rw [show wordPhone = '電' :: "話番号".toList from rfl]
  show ((('電' == c0) && _) && _) = false
  simp [hne]

theorem phone_out_not_company {v : List Char}
    (h : ∀ ch ∈ v, isDigitCh ch = true ∨ ch = '-') :
    isCompanyLabelOnly v = false ∧ startsCompanyLabel v = false := by
  cases v with
  | nil => exact ⟨by decide, by decide⟩
  | cons v0 vt =>
    have hws : ∀ a ∈ v0 :: vt, isJsWs a = false := fun a ha =>
      phone_char_not_ws (h a ha)
    have hne : '会' ≠ v0 := by
      rcases h v0 (by simp) with hd | rfl
      · intro he
        have h2 := congrArg Char.toNat he
        have h3 : ('会').toNat = 20250 := rfl
        simp only [isDigitCh, decide_eq_true_eq] at hd
        omega
      · decide
    constructor
    · unfold isCompanyLabelOnly
      dsimp only
      rw [dropWhile_eq_self_of_none hws]
      rw [show wordCompany = '会' :: "社名".toList from rfl]
      show ((('会' == v0) && _) && _) = false
      simp [hne]
    · unfold startsCompanyLabel
      rw [dropWhile_eq_self_of_none hws]
      rw [show wordCompany = '会' :: "社名".toList from rfl]
      show (('会' == v0) && _) = false
      simp [hne]

theorem parseMulti_no_company (text : List Char)
    (h : hasSub labelCompany text = false) :
    (parseMultiFieldResult text).payeeName = [] := by
  unfold parseMultiFieldResult
  rw [extractField_not_found text h]
  dsimp only
  rw [show postProcessOcrResult [] "payee-name" = [] from rfl]
  rw [show isPhoneLabelOnly ([] : List Char) = false from rfl]
  simp only [Bool.false_eq_true, if_false]
  rw [if_neg (by simp)]

theorem parseMulti_no_phone (text : List Char)
    (h : hasSub labelPhone text = false) :
    (parseMultiFieldResult text).phoneNumber = [] := by
  unfold parseMultiFieldResult
  rw [extractField_not_found text h]
  dsimp only
  rw [show postProcessOcrResult [] "phone-number" = [] from rfl]
  rw [show isCompanyLabelOnly ([] : List Char) = false from rfl]
  simp only [Bool.false_eq_true, if_false]
  rw [if_neg (by simp)]

theorem labelCompany_chars_ne : ∀ a ∈ labelCompany, a ≠ '電' := by decide

/-- Dual-field extraction on a canonically labeled two-line response. -/
theorem parseMultiFieldResult_labeled (c p : List Char) (hcne : c ≠ [])
    (hlat : ∀ ch ∈ c, ch ∈ latinDigitChars)
    (hdig : ∀ ch ∈ p, isDigitCh ch = true) :
    parseMultiFieldResult
      (labelCompany ++ ' ' :: (c ++ '\n' :: (labelPhone ++ ' ' :: p))) =
      ⟨c, formatPhoneNumber p⟩ := by
  have hco : extractField labelCompany
      (labelCompany ++ ' ' :: (c ++ '\n' :: (labelPhone ++ ' ' :: p))) = some c :=
    extractField_here (by decide)
      (@matchLabelValue_space_line c (labelPhone ++ ' ' :: p) hcne hlat)
  have htext : labelCompany ++ ' ' :: (c ++ '\n' :: (labelPhone ++ ' ' :: p)) =
      (labelCompany ++ (' ' :: (c ++ ['\n']))) ++ (labelPhone ++ (' ' :: p)) := by
    simp
  have hpre : ∀ ch ∈ labelCompany ++ (' ' :: (c ++ ['\n'])), ch ≠ '電' := by
    intro ch hch
    simp only [List.mem_append, List.mem_cons, List.mem_singleton] at hch
    rcases hch with hch | rfl | hch | rfl | hch
    · exact labelCompany_chars_ne ch hch
    · decide
    · exact (latin_ne ch (hlat ch hch)).2.2.2.1
    · decide
    · simp at hch
  have hph : extractField labelPhone
      (labelCompany ++ ' ' :: (c ++ '\n' :: (labelPhone ++ ' ' :: p))) = some p := by
    rw [htext]
    rw [show labelPhone = '電' :: "話番号:".toList from rfl]
    rw [extractField_skip _ _ hpre]
    rw [show ('電' :: "話番号:".toList) = labelPhone from rfl]
    exact extractField_here (by decide) (matchLabelValue_space_end hdig)
  unfold parseMultiFieldResult
  rw [hco, hph]
  dsimp only
  rw [jsTrim_eq_self fun ch hch => latin_not_ws ch (hlat ch hch)]
  rw [jsTrim_eq_self fun ch hch => phone_char_not_ws (Or.inl (hdig ch hch))]
  rw [postProcess_payee_latin hlat, postProcess_phone_digits hdig]
  rw [isPhoneLabelOnly_latin hcne hlat]
  rw [(phone_out_not_company (formatPhoneNumber_chars p)).1]
  simp only [Bool.false_eq_true, if_false]
  rw [if_neg (by
    rintro ⟨_, hcon⟩
    rw [contains_comma_false_latin hlat] at hcon
    exact absurd hcon (by simp))]
  rw [if_neg (by
    rintro ⟨_, hs⟩
    rw [(phone_out_not_company (formatPhoneNumber_chars p)).2] at hs
    exact absurd hs (by simp))]

/-! ## Pure-digit evaluation of `formatPhoneNumber` -/

theorem digits_no_dash {d : List Char} (hall : ∀ c ∈ d, isDigitCh c = true) :
    ¬ d.contains '-' = true := by
  intro hcon
  have hd : '-' ∈ d := by simpa using hcon
  exact absurd (hall '-' hd) (by decide)

theorem fpn_pure_digits {d : List Char} (hall : ∀ c ∈ d, isDigitCh c = true)
    (hle : d.length ≤ 11) (hne : d ≠ []) :
    formatPhoneNumber d = fmtByLen d := by
  unfold formatPhoneNumber
  rw [if_neg hne, digitsOf_eq_self hall, if_neg (by omega),
    if_neg (digits_no_dash hall)]

/-! ## Claim theorems -/

/-- C1: `formatPhoneNumber` rejects inputs with more than 11 digits by
returning the empty string, and formats by digit count: 10-digit numbers are
split by the area-code prefix table (03/06/04 two-digit; 052/072/075/078/082/
092 three-digit; 0120 four-digit free-dial), 11 digits are split 3-4-4,
8 digits 4-4, 9 digits 3-3-3; in particular
`formatPhoneNumber "0312345678" = "03-1234-5678"`,
`formatPhoneNumber "09012345678" = "090-1234-5678"`, and
`formatPhoneNumber "123456789012" = ""`. -/
theorem claim_C1_formatPhoneNumber :
    (∀ s : List Char, 11 < (digitsOf s).length → formatPhoneNumber s = []) ∧
    formatPhoneNumber ("0312345678".toList) = "03-1234-5678".toList ∧
    formatPhoneNumber ("09012345678".toList) = "090-1234-5678".toList ∧
    formatPhoneNumber ("123456789012".toList) = [] ∧
    (∀ d : List Char, (∀ c ∈ d, isDigitCh c = true) → d.length = 10 →
      ((d.take 2 = ['0', '3'] ∨ d.take 2 = ['0', '6'] ∨ d.take 2 = ['0', '4']) →
        formatPhoneNumber d = splice3 2 4 d) ∧
      ((d.take 3 = ['0', '5', '2'] ∨ d.take 3 = ['0', '7', '2'] ∨
        d.take 3 = ['0', '7', '5'] ∨ d.take 3 = ['0', '7', '8'] ∨
        d.take 3 = ['0', '8', '2'] ∨ d.take 3 = ['0', '9', '2']) →
        formatPhoneNumber d = splice3 3 3 d) ∧
      (d.take 4 = ['0', '1', '2', '0'] → formatPhoneNumber d = splice3 4 2 d)) ∧
    (∀ d : List Char, (∀ c ∈ d, isDigitCh c = true) → d.length = 11 →
      formatPhoneNumber d = splice3 3 4 d) ∧
    (∀ d : List Char, (∀ c ∈ d, isDigitCh c = true) → d.length = 8 →
      formatPhoneNumber d = d.take 4 ++ '-' :: d.drop 4) ∧
    (∀ d : List Char, (∀ c ∈ d, isDigitCh c = true) → d.length = 9 →
      formatPhoneNumber d = splice3 3 3 d) := by
  refine ⟨?_, by decide, by decide, by decide, ?_, ?_, ?_, ?_⟩
  · intro s hlen
    unfold formatPhoneNumber
    rw [if_neg (by
      intro h
      rw [h] at hlen
      simp [digitsOf] at hlen), if_pos hlen]
  · intro d hall h10
    have hne : d ≠ [] := by intro h; rw [h] at h10; simp at h10
    have hbase : formatPhoneNumber d = fmt10 d := by
      rw [fpn_pure_digits hall (by omega) hne]
      unfold fmtByLen
      rw [if_pos h10]
    refine ⟨?_, ?_, ?_⟩
    · intro hpre
      rw [hbase]
      unfold fmt10
      rcases hpre with h | h | h
      · rw [if_pos h]
      · rw [if_neg (by rw [h]; decide), if_pos h]
      · rw [if_neg (by rw [h]; decide), if_neg (by rw [h]; decide), if_pos h]
    · intro hpre
      rw [hbase]
      have h2 : d.take 2 = (d.take 3).take 2 := by
        rw [List.take_take]
        norm_num
      have hne03 : ¬ d.take 2 = ['0', '3'] := by
        rcases hpre with h | h | h | h | h | h <;> rw [h2, h] <;> decide
      have hne06 : ¬ d.take 2 = ['0', '6'] := by
        rcases hpre with h | h | h | h | h | h <;> rw [h2, h] <;> decide
      have hne04 : ¬ d.take 2 = ['0', '4'] := by
        rcases hpre with h | h | h | h | h | h <;> rw [h2, h] <;> decide
      unfold fmt10
      rw [if_neg hne03, if_neg hne06, if_neg hne04, if_pos hpre]
    · intro hpre
      rw [hbase]
      have h2 : d.take 2 = (d.take 4).take 2 := by
        rw [List.take_take]
        norm_num
      have h3 : d.take 3 = (d.take 4).take 3 := by
        rw [List.take_take]
        norm_num
      unfold fmt10
      rw [if_neg (by rw [h2, hpre]; decide), if_neg (by rw [h2, hpre]; decide),
        if_neg (by rw [h2, hpre]; decide),
        if_neg (by rw [h3, hpre]; decide), if_pos hpre]
  · intro d hall h11
    have hne : d ≠ [] := by intro h; rw [h] at h11; simp at h11
    rw [fpn_pure_digits hall (by omega) hne]
    unfold fmtByLen
    rw [if_neg (by omega), if_pos h11]
  · intro d hall h8
    have hne : d ≠ [] := by intro h; rw [h] at h8; simp at h8
    rw [fpn_pure_digits hall (by omega) hne]
    unfold fmtByLen
    rw [if_neg (by omega), if_neg (by omega), if_pos h8]
  · intro d hall h9
    have hne : d ≠ [] := by intro h; rw [h] at h9; simp at h9
    rw [fpn_pure_digits hall (by omega) hne]
    unfold fmtByLen
    rw [if_neg (by omega), if_neg (by omega), if_neg (by omega), if_pos h9]

/-- Witness for C1 at concrete inputs. -/
theorem claim_C1_witness :
    formatPhoneNumber ("123456789012345".toList) = [] ∧
    formatPhoneNumber ("0521234567".toList) = splice3 3 3 ("0521234567".toList) ∧
    formatPhoneNumber ("0120123456".toList) = splice3 4 2 ("0120123456".toList) ∧
    formatPhoneNumber ("12345678".toList) =
      ("12345678".toList).take 4 ++ '-' :: ("12345678".toList).drop 4 :=
  ⟨claim_C1_formatPhoneNumber.1 _ (by decide),
   (claim_C1_formatPhoneNumber.2.2.2.2.1 _ (by decide) (by decide)).2.1
     (by decide),
   (claim_C1_formatPhoneNumber.2.2.2.2.1 _ (by decide) (by decide)).2.2
     (by decide),
   claim_C1_formatPhoneNumber.2.2.2.2.2.2.1 _ (by decide) (by decide)⟩

/-- C10: inputs with at most 7 digits after stripping non-digits are
returned as the stripped digit string, unformatted; the result is nonempty
whenever any digit is present. -/
theorem claim_C10_short_inputs (s : List Char)
    (h : (digitsOf s).length ≤ 7) :
    formatPhoneNumber s = digitsOf s ∧
    ((∃ c ∈ s, isDigitCh c = true) → formatPhoneNumber s ≠ []) := by
  have hmain : formatPhoneNumber s = digitsOf s := by
    rcases eq_or_ne s [] with rfl | hne
    · rfl
    unfold formatPhoneNumber
    rw [if_neg hne, if_neg (by omega)]
    by_cases hdash : s.contains '-' = true
    · rw [if_pos hdash]
      have hok : hyphenFormatOk s = false := by
        cases hok2 : hyphenFormatOk s with
        | false => rfl
        | true => exact absurd (hyphenFormatOk_digit_count hok2) (by omega)
      rw [hok]
      simp only [Bool.false_eq_true, if_false]
      rw [digitsOf_filter_ne_dash]
      unfold fmtByLen
      rw [if_neg (by omega), if_neg (by omega), if_neg (by omega),
        if_neg (by omega)]
    · rw [if_neg hdash]
      unfold fmtByLen
      rw [if_neg (by omega), if_neg (by omega), if_neg (by omega),
        if_neg (by omega)]
  refine ⟨hmain, ?_⟩
  rintro ⟨c, hc, hdig⟩
  rw [hmain]
  intro hemp
  have : c ∈ digitsOf s := List.mem_filter.mpr ⟨hc, hdig⟩
  rw [hemp] at this
  simp at this

/-- Witness for C10 at a concrete input. -/
theorem claim_C10_witness :
    (digitsOf ("a1b2-c3".toList)).length ≤ 7 ∧
    formatPhoneNumber ("a1b2-c3".toList) = digitsOf ("a1b2-c3".toList) ∧
    formatPhoneNumber ("a1b2-c3".toList) ≠ [] :=
  ⟨by decide, (claim_C10_short_inputs _ (by decide)).1,
   (claim_C10_short_inputs _ (by decide)).2 ⟨'1', by decide, by decide⟩⟩

/-- C2: the request throttler executes every submitted call in FIFO order
(the trace ids equal the submission ids), routes each call's outcome to its
own promise (the trace outcome at position `i` is call `i`'s outcome, so a
rejection never suppresses a later call), and successive call starts are at
least `minIntervalMs` apart. -/
theorem claim_C2_requestThrottler (now lastReq : Nat) (cs : List QCall) :
    (runAPIRequestQueue now lastReq cs).map (fun t => t.id) =
      cs.map (fun c => c.id) ∧
    (runAPIRequestQueue now lastReq cs).map (fun t => t.ok) =
      cs.map (fun c => c.ok) ∧
    ∀ (i : Nat) (h : i + 1 < (runAPIRequestQueue now lastReq cs).length),
      ((runAPIRequestQueue now lastReq cs).get ⟨i, by omega⟩).startTime +
          minIntervalMs ≤
        ((runAPIRequestQueue now lastReq cs).get ⟨i + 1, h⟩).startTime :=
  ⟨runQueue_map_id minIntervalMs queueRescheduleDelayMs cs now lastReq,
   runQueue_map_ok minIntervalMs queueRescheduleDelayMs cs now lastReq,
   fun i h => runQueue_spacing minIntervalMs queueRescheduleDelayMs cs
     now lastReq i h⟩

def qcsW : List QCall := [⟨1, 100, true⟩, ⟨2, 700, false⟩, ⟨3, 5, true⟩]

/-- Witness for C2 on a concrete trace containing a rejected call. -/
theorem claim_C2_witness :
    (runAPIRequestQueue 0 0 qcsW).map (fun t => t.ok) =
      qcsW.map (fun c => c.ok) ∧
    ((runAPIRequestQueue 0 0 qcsW).get ⟨1, by decide⟩).startTime +
        minIntervalMs ≤
      ((runAPIRequestQueue 0 0 qcsW).get ⟨2, by decide⟩).startTime :=
  ⟨(claim_C2_requestThrottler 0 0 qcsW).2.1,
   (claim_C2_requestThrottler 0 0 qcsW).2.2 1 (by decide)⟩

/-- C3: the result cache holds at most 30 entries (a store preserves the
bound), a store of a fresh key into a full cache evicts exactly the single
oldest-inserted entry, and a relevant settings change in the `local`
namespace empties the cache, so every subsequent `get` misses. -/
theorem claim_C3_resultCache :
    (∀ (cache : Cache) (k v : List Char), cache.length ≤ 30 →
      (cachePutLimited cache k v).length ≤ 30) ∧
    (∀ (cache : Cache) (k v : List Char), cacheGet cache k = none →
      cache.length = 30 →
      cachePutLimited cache k v = cache.drop 1 ++ [(k, v)]) ∧
    (∀ (ns : String) (keys : List String) (cache : Cache) (k : List Char),
      ns = "local" →
      keys.any (fun kk => relevantSettingsKeys.contains kk) = true →
      cacheGet (onStorageChanged ns keys cache) k = none) :=
  ⟨cachePutLimited_le, cachePutLimited_fresh_full,
   fun ns keys cache k hns hkey => onStorageChanged_clears ns keys cache hns hkey k⟩

def cacheW : Cache :=
  (List.range 30).map (fun i => ([Char.ofNat (65 + i)], ['v']))

/-- Witness for C3 on a concrete full cache and a settings-change event. -/
theorem claim_C3_witness :
    (cachePutLimited cacheW ("fresh".toList) ("val".toList)).length ≤ 30 ∧
    cachePutLimited cacheW ("fresh".toList) ("val".toList) =
      cacheW.drop 1 ++ [("fresh".toList, "val".toList)] ∧
    cacheGet (onStorageChanged "local" ["geminiModel"] cacheW) ('A' :: []) =
      none :=
  ⟨claim_C3_resultCache.1 cacheW _ _ (by decide),
   claim_C3_resultCache.2.1 cacheW _ _ (by decide) (by decide),
   claim_C3_resultCache.2.2 "local" ["geminiModel"] cacheW _ rfl (by decide)⟩

/-- C4: for every image, `compressImageToSize` either returns a result whose
estimated size meets the target or fails with the exhaustion error; a success
is the output of the first ladder step (in the fixed order of the 4 steps)
that meets the target, and a failure means all 4 steps missed it. -/
theorem claim_C4_compressToTarget (env : ImgEnv) (img : List Char)
    (target : ℚ) :
    ((∃ r, compressImageToSize env img target = .ok r ∧
        estimatedSizeMB r ≤ target) ∨
      compressImageToSize env img target = .error .exhausted) ∧
    (∀ r, compressImageToSize env img target = .ok r →
      ∃ i, i < 4 ∧ r = ladderStep env img i ∧ estimatedSizeMB r ≤ target ∧
        ∀ j, j < i → ¬ estimatedSizeMB (ladderStep env img j) ≤ target) ∧
    (compressImageToSize env img target = .error .exhausted →
      ∀ i, i < 4 → ¬ estimatedSizeMB (ladderStep env img i) ≤ target) := by
  have hspec := compressGo_spec env img target 4 0
  have hdef : compressImageToSize env img target =
      compressGo env img target 0 4 := rfl
  refine ⟨?_, ?_, ?_⟩
  · rcases hspec with ⟨herr, _⟩ | ⟨r, hok, hle, _⟩
    · exact Or.inr (hdef ▸ herr)
    · exact Or.inl ⟨r, hdef ▸ hok, hle⟩
  · intro r hr
    rcases hspec with ⟨herr, _⟩ | ⟨r2, hok, hle, j, _, hj2, hjr, hmin⟩
    · rw [hdef, herr] at hr
      exact absurd hr (by simp)
    · rw [hdef, hok] at hr
      injection hr with hr2
      subst hr2
      exact ⟨j, by omega, hjr, hle, fun j2 hj => hmin j2 (by omega) hj⟩
  · intro herr2 i hi
    rcases hspec with ⟨_, hall⟩ | ⟨r, hok, _⟩
    · exact hall i (by omega) (by omega)
    · rw [hdef, hok] at herr2
      exact absurd herr2 (by simp)

def envW : ImgEnv :=
  { decode := fun _ => some (100, 100),
    encode := fun _ _ _ => some ("data:image/jpeg;base64,AAAA".toList) }

def imgW : List Char := "x".toList

/-- Witness for C4: the first ladder step of a tiny image meets the target. -/
theorem claim_C4_witness :
    ∃ i, i < 4 ∧ imgW = ladderStep envW imgW i ∧
      estimatedSizeMB imgW ≤ 10 ∧
      ∀ j, j < i → ¬ estimatedSizeMB (ladderStep envW imgW j) ≤ 10 :=
  (claim_C4_compressToTarget envW imgW 10).2.1 imgW (by
    simp [compressImageToSize, compressGo, ladderStep, optimizeImage, envW,
      imgW, estimatedSizeMB, base64Part, splitOnP, dataImageUrlStart])

/-- C6: `optimizeImage` never throws: with an invalid (non-data-URL) input,
a failing decode, or a failing encode it returns the original image
unchanged, and in every case its result is either the original image or an
output of the encoder. -/
theorem claim_C6_optimizeImage (env : ImgEnv) (img : List Char)
    (o : OptimizeOptions) :
    (¬ dataImageUrlStart.isPrefixOf img = true → optimizeImage env img o = img) ∧
    (env.decode img = none → optimizeImage env img o = img) ∧
    ((∀ w h q, env.encode w h q = none) → optimizeImage env img o = img) ∧
    (optimizeImage env img o = img ∨
      ∃ w h q r, env.encode w h q = some r ∧ optimizeImage env img o = r) := by
  refine ⟨?_, ?_, ?_, ?_⟩
  · intro hpre
    unfold optimizeImage
    rw [if_pos hpre]
  · intro hdec
    unfold optimizeImage
    by_cases hpre : dataImageUrlStart.isPrefixOf img = true
    · rw [if_neg (by simp [hpre]), hdec]
    · rw [if_pos hpre]
  · intro henc
    unfold optimizeImage
    by_cases hpre : dataImageUrlStart.isPrefixOf img = true
    · rw [if_neg (by simp [hpre])]
      cases hdec : env.decode img with
      | none => rfl
      | some wh =>
        cases wh with
        | mk w h =>
          dsimp only
          rw [henc]
    · rw [if_pos hpre]
  · unfold optimizeImage
    by_cases hpre : dataImageUrlStart.isPrefixOf img = true
    · rw [if_neg (by simp [hpre])]
      cases hdec : env.decode img with
      | none => exact Or.inl rfl
      | some wh =>
        cases wh with
        | mk w h =>
          dsimp only
          cases henc : env.encode _ _ _ with
          | none => exact Or.inl rfl
          | some r => exact Or.inr ⟨_, _, _, r, henc, rfl⟩
    · rw [if_pos hpre]
      exact Or.inl rfl

def envNoDecodeW : ImgEnv :=
  { decode := fun _ => none, encode := fun _ _ _ => none }

def optW : OptimizeOptions :=
  { rotation := 0, isQuarterRotated := false, maxDimension := 1600,
    quality := none, enhanceText := false, contrast := none }

/-- Witness for C6: a failing decode and a failing encode both return the
original image. -/
theorem claim_C6_witness :
    optimizeImage envNoDecodeW ("data:image/png;base64,AAAA".toList) optW =
      "data:image/png;base64,AAAA".toList ∧
    optimizeImage envNoDecodeW ("hello".toList) optW = "hello".toList :=
  ⟨(claim_C6_optimizeImage envNoDecodeW _ optW).2.1 rfl,
   (claim_C6_optimizeImage envNoDecodeW _ optW).1 (by decide)⟩

/-- C7: for a nonempty data URL whose estimated size is at most the 15 MB
cap, `checkImageSize` returns exactly the base64 estimate (hence within 1%
of `base64Length * 0.75 / 1MB`); above the cap it fails with the oversize
error. -/
theorem claim_C7_checkImageSize (d : List Char) (hne : d ≠ []) :
    (estimatedSizeMB d ≤ 15 →
      checkImageSize d = .ok (estimatedSizeMB d) ∧
      |estimatedSizeMB d -
          ((base64Part d).length : ℚ) * (3 / 4) / (1024 * 1024)| ≤
        (((base64Part d).length : ℚ) * (3 / 4) / (1024 * 1024)) / 100) ∧
    (15 < estimatedSizeMB d →
      checkImageSize d = .error (.oversize (estimatedSizeMB d))) := by
  constructor
  · intro hle
    constructor
    · unfold checkImageSize
      rw [if_neg hne, if_neg (not_lt.mpr hle)]
    · unfold estimatedSizeMB
      rw [sub_self, abs_zero]
      positivity
  · intro hgt
    unfold checkImageSize
    rw [if_neg hne, if_pos hgt]

/-- Witness for C7 on a concrete small data URL. -/
theorem claim_C7_witness :
    checkImageSize ("data:image/png;base64,AAAA".toList) =
      .ok (estimatedSizeMB ("data:image/png;base64,AAAA".toList)) :=
  ((claim_C7_checkImageSize _ (by decide)).1 (by
    simp [estimatedSizeMB, base64Part, splitOnP]
    norm_num)).1

/-! ## C5 -/

theorem hasSub_of_isPrefixOf {pat s : List Char}
    (h : pat.isPrefixOf s = true) : hasSub pat s = true := by
  cases s with
  | nil =>
    cases pat with
    | nil => rfl
    | cons a t => simp [List.isPrefixOf] at h
  | cons c rest =>
    unfold hasSub
    simp [h]

/-- HTTP failures with status 429 or at least 500 always throw a message
that the retry gate classifies as temporary. -/
theorem tempStatus_retried (st : Nat) (msg : List Char)
    (h : st = 429 ∨ 500 ≤ st) :
    ∃ e, attemptResult (.httpError st msg) = .error e ∧
      isTemporaryError e = true := by
  have hcls : isTempHttpClass st msg = true := by
    unfold isTempHttpClass
    rcases h with rfl | h2
    · simp
    · simp [h2]
  refine ⟨"一時的なAPI制限: ".toList ++ msg, ?_, ?_⟩
  · unfold attemptResult
    dsimp only
    rw [if_pos hcls]
  · have hsub : hasSub ("一時的なAPI制限".toList)
        ("一時的なAPI制限: ".toList ++ msg) = true := by
      apply hasSub_of_isPrefixOf
      rw [show "一時的なAPI制限: ".toList =
        "一時的なAPI制限".toList ++ ": ".toList from by decide]
      rw [List.append_assoc]
      exact isPrefixOf_append_self _ _
    unfold isTemporaryError
    simp only [Bool.or_eq_true]
    exact Or.inl (Or.inl (Or.inl (Or.inl hsub)))

/-- C5 (amended): a first-attempt success returns immediately; a failure
whose thrown message the retry gate classifies as temporary (which includes
HTTP 429/5xx and also the `server error` / `try again` markers folded into
the thrown message, plus `overloaded` / `rate limit` / `timeout` /
`タイムアウト` markers) is retried exactly once after a 1000 ms backoff
(`1000 × 1.5^0`), taking whatever the second attempt produces; a failure
classified non-temporary propagates immediately with no retry. -/
theorem claim_C5_amended (outcomes : Nat → AttemptOutcome) :
    (∀ t, attemptResult (outcomes 0) = .ok t →
      extractTextWithGeminiRetry outcomes = (.ok t, [])) ∧
    (∀ e, attemptResult (outcomes 0) = .error e → isTemporaryError e = false →
      extractTextWithGeminiRetry outcomes = (.error e, [])) ∧
    (∀ e, attemptResult (outcomes 0) = .error e → isTemporaryError e = true →
      extractTextWithGeminiRetry outcomes =
        (match attemptResult (outcomes 1) with
          | .ok t => .ok t
          | .error e2 => .error e2, [1000])) ∧
    backoffDelayMs 1 = 1000 * (3 / 2) ^ (0 : Nat) ∧
    (∀ st msg, st = 429 ∨ 500 ≤ st →
      ∃ e, attemptResult (.httpError st msg) = .error e ∧
        isTemporaryError e = true) :=
  ⟨fun t h => geminiRetry_success outcomes t h,
   fun e h htemp => geminiRetry_permanent outcomes e h htemp,
   fun e h htemp => geminiRetry_temporary outcomes e h htemp,
   by norm_num [backoffDelayMs],
   tempStatus_retried⟩

def outcomesPermW : Nat → AttemptOutcome :=
  fun _ => .httpError 400 ("bad key".toList)

/-- Witness for the amended C5: a permanent failure propagates with no
retry delay. -/
theorem claim_C5_witness :
    extractTextWithGeminiRetry outcomesPermW =
      (.error ("API エラー: bad key".toList), []) ∧
    backoffDelayMs 1 = 1000 * (3 / 2) ^ (0 : Nat) :=
  ⟨(claim_C5_amended outcomesPermW).2.1 _ rfl (by decide),
   (claim_C5_amended outcomesPermW).2.2.2.1⟩

def outcomesCex : Nat → AttemptOutcome := fun n =>
  if n = 0 then .httpError 400 ("please try again".toList)
  else .success ("ok".toList)

/-- Modelled from the claim's words, for comparison with the code: a failure
is temporary when the HTTP status is 429 or at least 500, or the error
message contains an overload, rate-limit, or timeout marker. -/
def claimTemporaryHttp (status : Nat) (msg : List Char) : Bool :=
  status = 429 || 500 ≤ status || hasSub ("overload".toList) msg ||
  hasSub ("rate limit".toList) msg || hasSub ("timeout".toList) msg

/-- C5 counterexample: an HTTP 400 failure whose message contains only the
`try again` marker is non-temporary by the claim's classification, yet the
code retries it (one 1000 ms backoff is waited and the result comes from the
second attempt) instead of propagating it immediately. -/
theorem claim_C5_counterexample :
    claimTemporaryHttp 400 ("please try again".toList) = false ∧
    extractTextWithGeminiRetry outcomesCex =
      (.ok ("ok".toList), [(1000 : ℚ)]) := by
  constructor
  · decide
  · exact geminiRetry_temporary outcomesCex
      ("一時的なAPI制限: please try again".toList) rfl (by decide)

/-! ## C8 -/

/-- C8 (amended): the text post-processor is idempotent for the
`phone-number` field type on every input. -/
theorem claim_C8_phone_idem (x : List Char) :
    postProcessOcrResult (postProcessOcrResult x "phone-number")
        "phone-number" =
      postProcessOcrResult x "phone-number" :=
  postProcess_phone_idem x

/-- C8 counterexample: the post-processor is not idempotent for every field
type.  For `payee-name`, removing NG tokens can expose a new NG token
(`株式株式会社会社テスト` becomes `株式会社テスト` after one pass and
`テスト` after two); for `phonetic`, the katakana shift can emit a combining
voicing mark (`ヺ` maps to U+309A) that the second pass's NFC normalization
composes into a different string. -/
theorem claim_C8_counterexample :
    postProcessOcrResult (postProcessOcrResult
        ("株式株式会社会社テスト".toList) "payee-name") "payee-name" ≠
      postProcessOcrResult ("株式株式会社会社テスト".toList) "payee-name" ∧
    postProcessOcrResult (postProcessOcrResult ("ハヺ".toList) "phonetic")
        "phonetic" ≠
      postProcessOcrResult ("ハヺ".toList) "phonetic" :=
  ⟨by decide, by decide⟩

/-! ## C9 -/

/-- C9: dual-field parsing extracts the company name from the line labeled
`会社名:` and the phone number from the line labeled `電話番号:`; when a
label is absent the corresponding sub-field is the empty string; parsing is
a total function and never raises. -/
theorem claim_C9_parseMultiField :
    (∀ text : List Char, hasSub labelCompany text = false →
      (parseMultiFieldResult text).payeeName = []) ∧
    (∀ text : List Char, hasSub labelPhone text = false →
      (parseMultiFieldResult text).phoneNumber = []) ∧
    (∀ c p : List Char, c ≠ [] → (∀ ch ∈ c, ch ∈ latinDigitChars) →
      (∀ ch ∈ p, isDigitCh ch = true) →
      parseMultiFieldResult
        (labelCompany ++ ' ' :: (c ++ '\n' :: (labelPhone ++ ' ' :: p))) =
        ⟨c, formatPhoneNumber p⟩) :=
  ⟨parseMulti_no_company, parseMulti_no_phone, parseMultiFieldResult_labeled⟩

/-- Witness for C9: a label-free text yields empty fields, and a canonical
two-line labeled response is split into its two fields. -/
theorem claim_C9_witness :
    (parseMultiFieldResult ("no labels at all".toList)).payeeName = [] ∧
    parseMultiFieldResult (labelCompany ++ ' ' :: ("ACME".toList ++ '\n' ::
        (labelPhone ++ ' ' :: "0312345678".toList))) =
      ⟨"ACME".toList, formatPhoneNumber ("0312345678".toList)⟩ :=
  ⟨claim_C9_parseMultiField.1 _ (by decide),
   claim_C9_parseMultiField.2.2 _ _ (by decide) (by decide) (by decide)⟩

end OcrVendor
